import Mathlib

/-!
# Verification of `meanC` / `mean_wrap` (src/example.cpp)

The program is

```
template <typename T>
T meanC(std::vector<T> x) {
  int n = x.size();
  float total = 0;
  for(int i = 0; i < n; ++i) { total += x[i]; }
  return total / n;
}

SEXP mean_wrap(SEXP input){
  std::vector<double> x = as<std::vector<double>>(input);
  float mean = meanC(x);
  return wrap(mean);
}
```

Floating-point values are embedded as IEEE 754 data (NaN, signed infinities, signed zeros,
nonzero finite values carried as exact rationals); every arithmetic operation returns the
round-to-nearest, ties-to-even image of the exact rational result in the format in which
C++ evaluates it (`float` = binary32, `double` = binary64, each operation evaluated in the
precision of its type, default rounding mode).

* `total += x[i]` is `total = total + x[i]`: at `T = double` the sum is formed in `double`
  and narrowed to `float` on assignment; at `T = int` the element is first converted to
  `float`.
* `total / n` is a `float` division by the `float` image of the `int` `n`; the quotient is
  then converted to the return type `T`.
* `int n = x.size()` reduces the size modulo `2^32` into the range of a 32-bit `int`.
* A read `x[i]` outside the vector, and a `float` to `int` conversion out of range, are
  undefined: the embedding returns `none` there.
* R numeric vectors are vectors of `double`: `as<std::vector<double>>` and `wrap` carry the
  values unchanged (`wrap` widens the `float` to `double`).
* The loop is given twice: as `loop`, a recursion on the number of iterations left, used by
  `meanCore`; and as the state machine `loopStep` / `runLoop` on the state `(x, i, total)`
  with the test `i < n`, shown to compute the same accumulator (`runLoop_eq_loop`).
-/

namespace MeanC

/-! ## IEEE 754 binary formats -/

/-- A binary floating-point format: `prec` significand bits (hidden bit included) and
largest exponent `emax`; the smallest normal exponent is `1 - emax`. -/
structure Format where
  prec : Nat
  emax : Int
deriving DecidableEq, Repr

/-- Smallest exponent of a normal number. -/
def Format.emin (f : Format) : Int := 1 - f.emax

/-- C++ `float`. -/
def binary32 : Format := ⟨24, 127⟩

/-- C++ `double`. -/
def binary64 : Format := ⟨53, 1023⟩

/-- A floating-point datum. `num q` carries a nonzero finite value. -/
inductive FP where
  | nan : FP
  | inf (neg : Bool) : FP
  | zero (neg : Bool) : FP
  | num (q : ℚ) : FP
deriving DecidableEq, Repr

/-- Halving loop behind `natLog2` (`fuel` bounds the number of halvings). -/
def log2Aux : Nat → Nat → Nat
  | 0, _ => 0
  | fuel + 1, n => if n < 2 then 0 else log2Aux fuel (n / 2) + 1

/-- Floor of the base-2 logarithm of a positive natural number. -/
def natLog2 (n : Nat) : Nat := log2Aux n n

/-- Floor of the base-2 logarithm of a positive rational. -/
def ilog2 (q : ℚ) : Int :=
  let d : Int := (natLog2 q.num.natAbs : Int) - (natLog2 q.den : Int)
  if (2 : ℚ) ^ d ≤ q then d else d - 1

/-- Exponent of the unit in the last place used to round a nonzero `q` in format `f`
(the exponent is clamped at `emin`, which gives the subnormal spacing). -/
def ulpExp (f : Format) (q : ℚ) : Int :=
  max (ilog2 |q|) f.emin - (f.prec : Int) + 1

/-- Round a nonnegative rational to the nearest integer, ties to even. -/
def rne (s : ℚ) : Int :=
  let fl := ⌊s⌋
  if s - fl < 1 / 2 then fl
  else if 1 / 2 < s - fl then fl + 1
  else if fl % 2 = 0 then fl else fl + 1

/-- Magnitude of the nearest multiple of the unit in the last place of `q`, ties to even
(before the overflow test). -/
def rmag (f : Format) (q : ℚ) : ℚ :=
  (rne (|q| / (2 : ℚ) ^ ulpExp f q) : ℚ) * (2 : ℚ) ^ ulpExp f q

/-- Round-to-nearest, ties-to-even of an exact rational result into format `f`.
An exact zero is returned as `+0` (the operations decide the sign of an exact zero
themselves); a nonzero value that rounds to zero keeps its sign; a magnitude that rounds
to `2^(emax+1)` or more overflows to an infinity. -/
def roundQ (f : Format) (q : ℚ) : FP :=
  if q = 0 then .zero false
  else if (2 : ℚ) ^ (f.emax + 1) ≤ rmag f q then .inf (decide (q < 0))
  else if rmag f q = 0 then .zero (decide (q < 0))
  else .num (if q < 0 then -rmag f q else rmag f q)

namespace FP

/-- IEEE addition evaluated in format `f`. -/
def add (f : Format) : FP → FP → FP
  | .nan, _ => .nan
  | _, .nan => .nan
  | .inf a, .inf b => if a = b then .inf a else .nan
  | .inf a, _ => .inf a
  | _, .inf b => .inf b
  | .zero a, .zero b => .zero (a && b)
  | .zero _, .num q => roundQ f q
  | .num p, .zero _ => roundQ f p
  | .num p, .num q => roundQ f (p + q)

/-- IEEE division evaluated in format `f`. -/
def div (f : Format) : FP → FP → FP
  | .nan, _ => .nan
  | _, .nan => .nan
  | .inf _, .inf _ => .nan
  | .inf a, .zero b => .inf (xor a b)
  | .inf a, .num q => .inf (xor a (decide (q < 0)))
  | .zero _, .zero _ => .nan
  | .zero a, .inf b => .zero (xor a b)
  | .zero a, .num q => .zero (xor a (decide (q < 0)))
  | .num p, .zero b => .inf (xor (decide (p < 0)) b)
  | .num p, .inf b => .zero (xor (decide (p < 0)) b)
  | .num p, .num q => roundQ f (p / q)

/-- Conversion of a floating-point datum to format `f` (`float` to `double` is exact,
`double` to `float` rounds). -/
def cvt (f : Format) : FP → FP
  | .nan => .nan
  | .inf a => .inf a
  | .zero a => .zero a
  | .num q => roundQ f q

/-- Conversion of an integer to format `f`. -/
def ofInt (f : Format) (n : Int) : FP := roundQ f (n : ℚ)

/-- The datum is a finite number. -/
def isFinite : FP → Bool
  | .zero _ => true
  | .num _ => true
  | _ => false

/-- The datum is a NaN. -/
def isNaN : FP → Bool
  | .nan => true
  | _ => false

/-- Numeric value of a finite datum (`0` for NaN and infinities, which have none). -/
def val : FP → ℚ
  | .num q => q
  | _ => 0

/-- Conversion of a floating-point datum to a 32-bit `int`: truncation toward zero;
undefined (`none`) for NaN, infinities and values whose truncation is out of range. -/
def toInt32 : FP → Option Int
  | .zero _ => some 0
  | .num q =>
      let t : Int := if q < 0 then -⌊-q⌋ else ⌊q⌋
      if -2147483648 ≤ t ∧ t ≤ 2147483647 then some t else none
  | _ => none

end FP

/-- Conversion of `x.size()` (an unsigned `size_t`) to `int`: reduction modulo `2^32`
into the signed range. -/
@[irreducible] def sizeToInt (len : Nat) : Int :=
  ((len : Int) + 2147483648) % 4294967296 - 2147483648

/-! ## The element types `T` at which `meanC` is read -/

/-- `total += x[i]` for `T = double`: `total` is promoted to `double`, the sum is formed in
`double`, and the result is converted back to `float`. -/
def plusEqDouble (total x : FP) : FP :=
  FP.cvt binary32 (FP.add binary64 (FP.cvt binary64 total) x)

/-- `total += x[i]` for `T = float`. -/
def plusEqFloat (total x : FP) : FP :=
  FP.add binary32 total x

/-- `total += x[i]` for `T = int`: the element is converted to `float` and added. -/
def plusEqInt (total : FP) (x : Int) : FP :=
  FP.add binary32 total (FP.ofInt binary32 x)

/-- The loop `for (int i = 0; i < n; ++i) total += x[i];` started at index `i` with `k`
iterations left (`k = n - i`). `x[i]` outside the vector is undefined: `none`. -/
def loop {T : Type} (plusEq : FP → T → FP) (x : List T) : Nat → Nat → FP → Option FP
  | 0, _, total => some total
  | k + 1, i, total =>
      match x[i]? with
      | none => none
      | some v => loop plusEq x k (i + 1) (plusEq total v)

/-- The body of `meanC` up to the final conversion to `T`: returns the `float` value
`total / n`. -/
def meanCore {T : Type} (plusEq : FP → T → FP) (x : List T) : Option FP :=
  let n : Int := sizeToInt x.length
  (loop plusEq x n.toNat 0 (.zero false)).map
    (fun total => FP.div binary32 total (FP.ofInt binary32 n))

/-- `meanC<double>`: the `float` quotient is converted to `double`. -/
def meanC_double (x : List FP) : Option FP :=
  (meanCore plusEqDouble x).map (FP.cvt binary64)

/-- `meanC<float>`. -/
def meanC_float (x : List FP) : Option FP :=
  meanCore plusEqFloat x

/-- `meanC<int>`: the `float` quotient is converted to `int`. -/
def meanC_int (x : List Int) : Option Int :=
  (meanCore plusEqInt x).bind FP.toInt32

/-- `mean_wrap` on an R numeric vector: `meanC<double>`, narrowed into the `float` variable
`mean`, then wrapped as an R numeric (a `double`). -/
def mean_wrap (input : List FP) : Option FP :=
  (meanC_double input).map (fun m => FP.cvt binary64 (FP.cvt binary32 m))

/-! ## The loop as a state machine -/

/-- State of the loop of `meanC`: the vector `x` (the by-value parameter of `meanC`), the
counter `i` and the accumulator `total`. Nothing else is read or written by the loop. -/
structure LoopState (T : Type) where
  x : List T
  i : Int
  total : FP

/-- Outcome of one pass through `for (...; i < n; ++i) { total += x[i]; }`: the test
`i < n` fails (`stop`), or the body and `++i` run (`next`), or `x[i]` is read outside the
vector (`undefined`). -/
inductive LoopStep (T : Type) where
  | stop (s : LoopState T) : LoopStep T
  | next (s : LoopState T) : LoopStep T
  | undefined : LoopStep T

/-- One pass through the loop: test `i < n`, then `total += x[i]`, then `++i`. The body
writes `total`, the increment writes `i`, and `x` is only read. -/
def loopStep {T : Type} (plusEq : FP → T → FP) (n : Int) (s : LoopState T) : LoopStep T :=
  if s.i < n then
    match (if 0 ≤ s.i then s.x[s.i.toNat]? else none) with
    | some v => .next { x := s.x, i := s.i + 1, total := plusEq s.total v }
    | none => .undefined
  else .stop s

/-- Run of the loop from state `s` for at most `fuel` passes through the header. Returns the
state at loop exit together with the indices at which the body ran, in the order of the run;
`none` when an access is undefined or the fuel runs out before the loop exits. -/
def runLoop {T : Type} (plusEq : FP → T → FP) (n : Int) :
    Nat → LoopState T → Option (LoopState T × List Int)
  | 0, _ => none
  | fuel + 1, s =>
      match loopStep plusEq n s with
      | .stop s1 => some (s1, [])
      | .undefined => none
      | .next s1 => (runLoop plusEq n fuel s1).map (fun r => (r.1, s.i :: r.2))

/-! ## Notions used to state the properties -/

/-- `q` is exactly representable in format `f`: it is zero, or a multiple of the unit in
the last place of its own binade and below the overflow threshold. -/
def Rep (f : Format) (q : ℚ) : Prop :=
  q = 0 ∨ ((|q| / (2 : ℚ) ^ ulpExp f q).den = 1 ∧ |q| < (2 : ℚ) ^ (f.emax + 1))

instance (f : Format) (q : ℚ) : Decidable (Rep f q) := by
  unfold Rep; infer_instance

/-- The datum is a value of format `f` (a finite nonzero one carries a representable,
nonzero rational). -/
def FP.inFormat (f : Format) : FP → Prop
  | .num q => q ≠ 0 ∧ Rep f q
  | _ => True

instance (f : Format) (v : FP) : Decidable (FP.inFormat f v) := by
  cases v <;> unfold FP.inFormat <;> infer_instance

/-- The datum holding the exact value `q` (`+0` for zero). -/
def ofQ (q : ℚ) : FP := if q = 0 then .zero false else .num q

/-- Exact (rational) sum of the values of a vector of finite data. -/
def sumQ (x : List FP) : ℚ := (x.map FP.val).sum

/-- Every element is finite and every running sum `acc + x[0] + ... + x[i]` is exactly
representable in `float`, so that the accumulation never rounds. -/
def exactSums : ℚ → List FP → Bool
  | _, [] => true
  | acc, v :: vs =>
      v.isFinite && decide (Rep binary32 (acc + v.val)) && exactSums (acc + v.val) vs

/-- Smallest value in a list of rationals (`0` for the empty list). -/
def listMin : List ℚ → ℚ
  | [] => 0
  | [a] => a
  | a :: b :: l => min a (listMin (b :: l))

/-- Largest value in a list of rationals (`0` for the empty list). -/
def listMax : List ℚ → ℚ
  | [] => 0
  | [a] => a
  | a :: b :: l => max a (listMax (b :: l))

/-! ## Base-2 logarithm -/

theorem log2Aux_spec : ∀ (fuel n : Nat), n ≤ fuel → n ≠ 0 →
    2 ^ log2Aux fuel n ≤ n ∧ n < 2 ^ (log2Aux fuel n + 1) := by
  intro fuel
  induction fuel with
  | zero => intro n h h0; omega
  | succ k ih =>
    intro n h h0
    unfold log2Aux
    by_cases h2 : n < 2
    · have : n = 1 := by omega
      subst this
      simp
    · rw [if_neg h2]
      have hk : n / 2 ≤ k := by omega
      have h1 : n / 2 ≠ 0 := by omega
      obtain ⟨ha, hb⟩ := ih (n / 2) hk h1
      rw [pow_succ] at hb ⊢
      constructor
      · omega
      · rw [pow_succ]; omega

theorem natLog2_spec (n : Nat) (h0 : n ≠ 0) :
    2 ^ natLog2 n ≤ n ∧ n < 2 ^ (natLog2 n + 1) :=
  log2Aux_spec n n (le_refl n) h0

theorem two_zpow_pos (e : Int) : (0 : ℚ) < (2 : ℚ) ^ e := zpow_pos (by norm_num) e

theorem two_zpow_succ (e : Int) : (2 : ℚ) ^ (e + 1) = 2 * (2 : ℚ) ^ e := by
  rw [zpow_add₀ (by norm_num : (2 : ℚ) ≠ 0), zpow_one, mul_comm]

theorem two_zpow_pred (e : Int) : (2 : ℚ) ^ (e - 1) = (2 : ℚ) ^ e / 2 := by
  rw [zpow_sub₀ (by norm_num : (2 : ℚ) ≠ 0), zpow_one]

theorem two_zpow_mono {a b : Int} (h : a ≤ b) : (2 : ℚ) ^ a ≤ (2 : ℚ) ^ b :=
  zpow_le_zpow_right₀ (by norm_num) h

theorem two_zpow_lt_iff {a b : Int} : (2 : ℚ) ^ a < (2 : ℚ) ^ b ↔ a < b :=
  zpow_lt_zpow_iff_right₀ (by norm_num)

theorem two_zpow_le_iff {a b : Int} : (2 : ℚ) ^ a ≤ (2 : ℚ) ^ b ↔ a ≤ b :=
  zpow_le_zpow_iff_right₀ (by norm_num)

/-- The exponent returned by `ilog2` brackets its argument between consecutive powers of 2. -/
theorem ilog2_spec (q : ℚ) (hq : 0 < q) :
    (2 : ℚ) ^ ilog2 q ≤ q ∧ q < (2 : ℚ) ^ (ilog2 q + 1) := by
  have hnum : 0 < q.num := Rat.num_pos.mpr hq
  have ha0 : q.num.natAbs ≠ 0 := by omega
  have hb0 : q.den ≠ 0 := q.den_nz
  obtain ⟨ha1, ha2⟩ := natLog2_spec _ ha0
  obtain ⟨hb1, hb2⟩ := natLog2_spec _ hb0
  set la := natLog2 q.num.natAbs
  set lb := natLog2 q.den
  have hqa : q = (q.num.natAbs : ℚ) / (q.den : ℚ) := by
    have h1 : ((q.num.natAbs : Int) : ℚ) = (q.num : ℚ) := by
      rw [Int.natAbs_of_nonneg hnum.le]
    have h2 : ((q.num.natAbs : Int) : ℚ) = (q.num.natAbs : ℚ) := Int.cast_natCast _
    rw [← h2, h1, Rat.num_div_den]
  have hA1 : ((2 : ℚ) ^ la) ≤ (q.num.natAbs : ℚ) := by exact_mod_cast ha1
  have hA2 : (q.num.natAbs : ℚ) < 2 * (2 : ℚ) ^ la := by
    have : (q.num.natAbs : ℚ) < (2 : ℚ) ^ (la + 1) := by exact_mod_cast ha2
    rwa [pow_succ, mul_comm] at this
  have hB1 : ((2 : ℚ) ^ lb) ≤ (q.den : ℚ) := by exact_mod_cast hb1
  have hB2 : (q.den : ℚ) < 2 * (2 : ℚ) ^ lb := by
    have : (q.den : ℚ) < (2 : ℚ) ^ (lb + 1) := by exact_mod_cast hb2
    rwa [pow_succ, mul_comm] at this
  have hApos : (0 : ℚ) < (2 : ℚ) ^ la := by positivity
  have hBpos : (0 : ℚ) < (2 : ℚ) ^ lb := by positivity
  have hbpos : (0 : ℚ) < (q.den : ℚ) := by exact_mod_cast Nat.pos_of_ne_zero hb0
  have hd : (2 : ℚ) ^ ((la : Int) - (lb : Int)) = (2 : ℚ) ^ la / (2 : ℚ) ^ lb := by
    rw [zpow_sub₀ (by norm_num : (2 : ℚ) ≠ 0), zpow_natCast, zpow_natCast]
  have hlo : (2 : ℚ) ^ la / (2 : ℚ) ^ lb / 2 < q := by
    rw [hqa, div_div, div_lt_div_iff₀ (by positivity) hbpos]
    nlinarith
  have hhi : q < 2 * ((2 : ℚ) ^ la / (2 : ℚ) ^ lb) := by
    rw [← mul_div_assoc]
    conv_lhs => rw [hqa]
    rw [div_lt_div_iff₀ hbpos hBpos]
    nlinarith
  unfold ilog2
  simp only
  split_ifs with h
  · refine ⟨h, ?_⟩
    rw [two_zpow_succ, hd]; exact hhi
  · constructor
    · rw [two_zpow_pred, hd]; exact hlo.le
    · rw [sub_add_cancel]; exact lt_of_not_le h

/-- Any exponent that brackets `q` is the one `ilog2` returns. -/
theorem ilog2_unique (q : ℚ) (e : Int) (h1 : (2 : ℚ) ^ e ≤ q) (h2 : q < (2 : ℚ) ^ (e + 1)) :
    ilog2 q = e := by
  have hq : 0 < q := lt_of_lt_of_le (two_zpow_pos e) h1
  obtain ⟨s1, s2⟩ := ilog2_spec q hq
  have a1 : e < ilog2 q + 1 := two_zpow_lt_iff.mp (lt_of_le_of_lt h1 s2)
  have a2 : ilog2 q < e + 1 := two_zpow_lt_iff.mp (lt_of_le_of_lt s1 h2)
  omega

theorem ilog2_mono {a b : ℚ} (ha : 0 < a) (hab : a ≤ b) : ilog2 a ≤ ilog2 b := by
  obtain ⟨s1, _⟩ := ilog2_spec a ha
  obtain ⟨_, t2⟩ := ilog2_spec b (lt_of_lt_of_le ha hab)
  have : ilog2 a < ilog2 b + 1 := two_zpow_lt_iff.mp (lt_of_le_of_lt (s1.trans hab) t2)
  omega

/-! ## Rounding to the nearest integer -/

theorem rne_intCast (z : Int) : rne (z : ℚ) = z := by
  unfold rne
  simp

theorem floor_le_rne (s : ℚ) : ⌊s⌋ ≤ rne s := by
  unfold rne
  simp only
  split_ifs <;> omega

theorem rne_le_floor_succ (s : ℚ) : rne s ≤ ⌊s⌋ + 1 := by
  unfold rne
  simp only
  split_ifs <;> omega

theorem int_le_rne {s : ℚ} {z : Int} (h : (z : ℚ) ≤ s) : z ≤ rne s :=
  (Int.le_floor.mpr h).trans (floor_le_rne s)

theorem rne_le_int {s : ℚ} {z : Int} (h : s ≤ (z : ℚ)) : rne s ≤ z := by
  have hfl : (⌊s⌋ : ℚ) ≤ s := Int.floor_le s
  by_cases hs : s - ⌊s⌋ < 1 / 2
  · have : rne s = ⌊s⌋ := by unfold rne; simp only; rw [if_pos hs]
    rw [this]
    exact_mod_cast hfl.trans h
  · have hlt : (⌊s⌋ : ℚ) < (z : ℚ) := by linarith
    have hlt2 : ⌊s⌋ < z := by exact_mod_cast hlt
    have := rne_le_floor_succ s
    omega

theorem rne_err (s : ℚ) : |(rne s : ℚ) - s| ≤ 1 / 2 := by
  have h1 : (⌊s⌋ : ℚ) ≤ s := Int.floor_le s
  have h2 : s < (⌊s⌋ : ℚ) + 1 := Int.lt_floor_add_one s
  unfold rne
  simp only
  rw [abs_le]
  split_ifs with a b c
  · constructor <;> linarith
  · push_cast; constructor <;> linarith
  · push_cast at *; constructor <;> linarith
  · push_cast at *; constructor <;> linarith

/-! ## Representable values and rounding -/

theorem two_zpow_int {k : Int} (hk : 0 ≤ k) : ∃ N : Int, (2 : ℚ) ^ k = (N : ℚ) := by
  refine ⟨2 ^ k.toNat, ?_⟩
  have : k = (k.toNat : Int) := (Int.toNat_of_nonneg hk).symm
  conv_lhs => rw [this]
  rw [zpow_natCast]
  push_cast
  rfl

theorem two_zpow_split (a b : Int) : (2 : ℚ) ^ a = (2 : ℚ) ^ (a - b) * (2 : ℚ) ^ b := by
  rw [← zpow_add₀ (by norm_num : (2 : ℚ) ≠ 0), sub_add_cancel]

/-- A representable value is an integer multiple of every power of two not above its own
unit in the last place. -/
theorem Rep.multiple {f : Format} {c : ℚ} (hc : Rep f c) (h0 : c ≠ 0) {k : Int}
    (hk : k ≤ ulpExp f c) : ∃ Z : Int, |c| = (Z : ℚ) * (2 : ℚ) ^ k := by
  rcases hc with h | ⟨hden, _⟩
  · exact absurd h h0
  · have hz : ((|c| / (2 : ℚ) ^ ulpExp f c).num : ℚ) = |c| / (2 : ℚ) ^ ulpExp f c :=
      (Rat.den_eq_one_iff _).mp hden
    obtain ⟨N, hN⟩ := two_zpow_int (sub_nonneg.mpr hk)
    refine ⟨(|c| / (2 : ℚ) ^ ulpExp f c).num * N, ?_⟩
    have hu : (2 : ℚ) ^ ulpExp f c ≠ 0 := (two_zpow_pos _).ne'
    push_cast
    rw [hz, ← hN, mul_assoc, ← two_zpow_split, div_mul_cancel₀ _ hu]

theorem Rep.lt_overflow {f : Format} {c : ℚ} (hc : Rep f c) :
    |c| < (2 : ℚ) ^ (f.emax + 1) := by
  rcases hc with h | ⟨_, h⟩
  · rw [h, abs_zero]; exact two_zpow_pos _
  · exact h

theorem rmag_of_rep {f : Format} {q : ℚ} (hq : Rep f q) (h0 : q ≠ 0) : rmag f q = |q| := by
  obtain ⟨Z, hZ⟩ := hq.multiple h0 (le_refl _)
  have hu : (2 : ℚ) ^ ulpExp f q ≠ 0 := (two_zpow_pos _).ne'
  unfold rmag
  rw [hZ, mul_div_assoc, div_self hu, mul_one, rne_intCast]

/-- Rounding a representable value returns it unchanged. -/
theorem roundQ_of_rep {f : Format} {q : ℚ} (hq : Rep f q) : roundQ f q = ofQ q := by
  unfold roundQ ofQ
  by_cases h0 : q = 0
  · rw [if_pos h0, if_pos h0]
  · rw [if_neg h0, if_neg h0, rmag_of_rep hq h0, if_neg (not_le.mpr hq.lt_overflow),
      if_neg (abs_ne_zero.mpr h0)]
    congr 1
    split_ifs with h
    · rw [abs_of_neg h, neg_neg]
    · rw [abs_of_nonneg (not_lt.mp h)]

theorem ulpExp_mono {f : Format} {a b : ℚ} (ha : a ≠ 0) (hab : |a| ≤ |b|) :
    ulpExp f a ≤ ulpExp f b := by
  unfold ulpExp
  have := ilog2_mono (abs_pos.mpr ha) hab
  have : max (ilog2 |a|) f.emin ≤ max (ilog2 |b|) f.emin := max_le_max this (le_refl _)
  omega

/-- Rounding never passes a representable value above: for `0 < q ≤ c`. -/
theorem rmag_le_of_le_rep {f : Format} {q c : ℚ} (hc : Rep f c) (hq : 0 < q) (hqc : q ≤ c) :
    rmag f q ≤ c := by
  have hcpos : 0 < c := lt_of_lt_of_le hq hqc
  have habs : |q| ≤ |c| := by rw [abs_of_pos hq, abs_of_pos hcpos]; exact hqc
  obtain ⟨Z, hZ⟩ := hc.multiple hcpos.ne' (ulpExp_mono hq.ne' habs)
  have hu : (0 : ℚ) < (2 : ℚ) ^ ulpExp f q := two_zpow_pos _
  rw [abs_of_pos hcpos] at hZ
  have hs : |q| / (2 : ℚ) ^ ulpExp f q ≤ (Z : ℚ) := by
    rw [div_le_iff₀ hu, ← hZ, abs_of_pos hq]; exact hqc
  have hr : rne (|q| / (2 : ℚ) ^ ulpExp f q) ≤ Z := rne_le_int hs
  unfold rmag
  rw [hZ]
  exact mul_le_mul_of_nonneg_right (by exact_mod_cast hr) hu.le

theorem rmag_nonneg (f : Format) (q : ℚ) : 0 ≤ rmag f q := by
  unfold rmag
  have hu : (0 : ℚ) < (2 : ℚ) ^ ulpExp f q := two_zpow_pos _
  have hs : (0 : ℚ) ≤ |q| / (2 : ℚ) ^ ulpExp f q := div_nonneg (abs_nonneg q) hu.le
  have h0 : (0 : Int) ≤ rne (|q| / (2 : ℚ) ^ ulpExp f q) :=
    int_le_rne (by exact_mod_cast hs)
  exact mul_nonneg (by exact_mod_cast h0) hu.le

theorem ulpExp_neg (f : Format) (q : ℚ) : ulpExp f (-q) = ulpExp f q := by
  unfold ulpExp; rw [abs_neg]

theorem rmag_neg (f : Format) (q : ℚ) : rmag f (-q) = rmag f q := by
  unfold rmag; rw [abs_neg, ulpExp_neg]

theorem ulpExp_abs (f : Format) (q : ℚ) : ulpExp f |q| = ulpExp f q := by
  unfold ulpExp; rw [abs_abs]

theorem rmag_abs (f : Format) (q : ℚ) : rmag f |q| = rmag f q := by
  unfold rmag; rw [abs_abs, ulpExp_abs]

theorem Rep.neg {f : Format} {q : ℚ} (h : Rep f q) : Rep f (-q) := by
  unfold Rep at *
  rw [abs_neg, ulpExp_neg, neg_eq_zero]
  exact h

theorem Rep.abs {f : Format} {q : ℚ} (h : Rep f q) : Rep f |q| := by
  unfold Rep at *
  rw [abs_abs, ulpExp_abs, abs_eq_zero]
  exact h

/-- In the normal range the rounded magnitude stays in or above the binade of `q`. -/
theorem pow_le_rmag {f : Format} (hp : 1 ≤ f.prec) {q : ℚ} (h0 : q ≠ 0)
    (hn : f.emin ≤ ilog2 |q|) : (2 : ℚ) ^ ilog2 |q| ≤ rmag f q := by
  have hE : ulpExp f q = ilog2 |q| - (f.prec : Int) + 1 := by
    unfold ulpExp; rw [max_eq_left hn]
  have hu : (0 : ℚ) < (2 : ℚ) ^ ulpExp f q := two_zpow_pos _
  obtain ⟨N, hN⟩ := two_zpow_int (k := (f.prec : Int) - 1) (by omega)
  have hsplit : (2 : ℚ) ^ ilog2 |q| = (N : ℚ) * (2 : ℚ) ^ ulpExp f q := by
    rw [← hN, hE, ← zpow_add₀ (by norm_num : (2 : ℚ) ≠ 0)]
    congr 1; omega
  have hs : (N : ℚ) ≤ |q| / (2 : ℚ) ^ ulpExp f q := by
    rw [le_div_iff₀ hu, ← hsplit]
    exact (ilog2_spec _ (abs_pos.mpr h0)).1
  have hr : N ≤ rne (|q| / (2 : ℚ) ^ ulpExp f q) := int_le_rne hs
  unfold rmag
  rw [hsplit]
  exact mul_le_mul_of_nonneg_right (by exact_mod_cast hr) hu.le

/-- The rounded magnitude never passes the next power of two. -/
theorem rmag_le_pow {f : Format} {q : ℚ} (h0 : q ≠ 0) :
    rmag f q ≤ (2 : ℚ) ^ (max (ilog2 |q|) f.emin + 1) := by
  have hu : (0 : ℚ) < (2 : ℚ) ^ ulpExp f q := two_zpow_pos _
  obtain ⟨N, hN⟩ := two_zpow_int (k := (f.prec : Int)) (by omega)
  have hsplit : (2 : ℚ) ^ (max (ilog2 |q|) f.emin + 1) = (N : ℚ) * (2 : ℚ) ^ ulpExp f q := by
    rw [← hN, ← zpow_add₀ (by norm_num : (2 : ℚ) ≠ 0)]
    congr 1; unfold ulpExp; omega
  have hs : |q| / (2 : ℚ) ^ ulpExp f q ≤ (N : ℚ) := by
    rw [div_le_iff₀ hu, ← hsplit]
    have h1 := (ilog2_spec _ (abs_pos.mpr h0)).2
    have h2 : (2 : ℚ) ^ (ilog2 |q| + 1) ≤ (2 : ℚ) ^ (max (ilog2 |q|) f.emin + 1) :=
      two_zpow_mono (by have := le_max_left (ilog2 |q|) f.emin; omega)
    exact (h1.trans_le h2).le
  have hr : rne (|q| / (2 : ℚ) ^ ulpExp f q) ≤ N := rne_le_int hs
  unfold rmag
  rw [hsplit]
  exact mul_le_mul_of_nonneg_right (by exact_mod_cast hr) hu.le

/-- Rounding never passes a representable value below: for `0 < c ≤ q`. -/
theorem rep_le_rmag_of_le {f : Format} (hp : 1 ≤ f.prec) {q c : ℚ} (hc : Rep f c)
    (hcpos : 0 < c) (hcq : c ≤ q) : c ≤ rmag f q := by
  have hq : 0 < q := lt_of_lt_of_le hcpos hcq
  have hu : (0 : ℚ) < (2 : ℚ) ^ ulpExp f q := two_zpow_pos _
  by_cases hcase : ulpExp f q ≤ ulpExp f c
  · obtain ⟨Z, hZ⟩ := hc.multiple hcpos.ne' hcase
    rw [abs_of_pos hcpos] at hZ
    have hs : (Z : ℚ) ≤ |q| / (2 : ℚ) ^ ulpExp f q := by
      rw [le_div_iff₀ hu, ← hZ, abs_of_pos hq]; exact hcq
    have hr : Z ≤ rne (|q| / (2 : ℚ) ^ ulpExp f q) := int_le_rne hs
    unfold rmag
    rw [hZ]
    exact mul_le_mul_of_nonneg_right (by exact_mod_cast hr) hu.le
  · have hlt : ulpExp f c < ulpExp f q := not_le.mp hcase
    unfold ulpExp at hlt
    have hn : f.emin ≤ ilog2 |q| := by
      by_contra hcon
      have h1 : max (ilog2 |q|) f.emin = f.emin := max_eq_right (by omega)
      have h2 := le_max_right (ilog2 |c|) f.emin
      omega
    have he : ilog2 |c| + 1 ≤ ilog2 |q| := by
      have h1 : max (ilog2 |q|) f.emin = ilog2 |q| := max_eq_left hn
      have h2 := le_max_left (ilog2 |c|) f.emin
      omega
    have h3 : c < (2 : ℚ) ^ (ilog2 |c| + 1) :=
      (le_abs_self c).trans_lt (ilog2_spec _ (abs_pos.mpr hcpos.ne')).2
    have h4 : (2 : ℚ) ^ (ilog2 |c| + 1) ≤ (2 : ℚ) ^ ilog2 |q| := two_zpow_mono he
    exact (h3.trans_le (h4.trans (pow_le_rmag hp hq.ne' hn))).le

/-- A multiple of a power of two at or above its own unit in the last place, below the
overflow threshold, is representable. -/
theorem Rep.of_multiple {f : Format} {c : ℚ} {k : Int} (Z : Int)
    (hZ : |c| = (Z : ℚ) * (2 : ℚ) ^ k) (hk : ulpExp f c ≤ k)
    (hlt : |c| < (2 : ℚ) ^ (f.emax + 1)) : Rep f c := by
  right
  refine ⟨?_, hlt⟩
  obtain ⟨N, hN⟩ := two_zpow_int (sub_nonneg.mpr hk)
  have hu : (2 : ℚ) ^ ulpExp f c ≠ 0 := (two_zpow_pos _).ne'
  have : |c| / (2 : ℚ) ^ ulpExp f c = ((Z * N : Int) : ℚ) := by
    rw [hZ, two_zpow_split k (ulpExp f c), hN]
    push_cast
    field_simp
    ring
  rw [this]
  exact Rat.den_intCast _

/-- A value representable in a format is representable in every wider format. -/
theorem Rep.widen {f g : Format} {q : ℚ} (hp : f.prec ≤ g.prec) (he : f.emax ≤ g.emax)
    (h : Rep f q) : Rep g q := by
  by_cases h0 : q = 0
  · exact Or.inl h0
  · have hk : ulpExp g q ≤ ulpExp f q := by
      unfold ulpExp Format.emin
      have : max (ilog2 |q|) (1 - g.emax) ≤ max (ilog2 |q|) (1 - f.emax) :=
        max_le_max (le_refl _) (by omega)
      have hp2 : (f.prec : Int) ≤ (g.prec : Int) := by exact_mod_cast hp
      omega
    obtain ⟨Z, hZ⟩ := h.multiple h0 (le_refl _)
    refine Rep.of_multiple Z hZ hk (h.lt_overflow.trans_le (two_zpow_mono (by omega)))

theorem rep32_rep64 {q : ℚ} (h : Rep binary32 q) : Rep binary64 q :=
  h.widen (by decide) (by decide)

/-- The rounded magnitude, when it does not overflow, is representable. -/
theorem rep_rmag {f : Format} (hp : 1 ≤ f.prec) {q : ℚ} (h0 : q ≠ 0)
    (hno : rmag f q < (2 : ℚ) ^ (f.emax + 1)) : Rep f (rmag f q) := by
  have hv := rmag_nonneg f q
  by_cases hv0 : rmag f q = 0
  · exact Or.inl hv0
  have hvpos : 0 < rmag f q := lt_of_le_of_ne hv (Ne.symm hv0)
  have hle := rmag_le_pow (f := f) h0
  have habs : |rmag f q| = rmag f q := abs_of_pos hvpos
  rcases eq_or_lt_of_le hle with heq | hlt
  · -- the magnitude was rounded up to the next power of two
    have hlog : ilog2 |rmag f q| = max (ilog2 |q|) f.emin + 1 := by
      rw [habs]
      apply ilog2_unique
      · rw [heq]
      · rw [heq]; exact two_zpow_lt_iff.mpr (by omega)
    obtain ⟨N, hN⟩ := two_zpow_int (k := (f.prec : Int) - 1) (by omega)
    have hue : ulpExp f (rmag f q) = max (ilog2 |q|) f.emin + 1 - (f.prec : Int) + 1 := by
      unfold ulpExp
      rw [hlog]
      have := le_max_right (ilog2 |q|) f.emin
      have : max (max (ilog2 |q|) f.emin + 1) f.emin = max (ilog2 |q|) f.emin + 1 :=
        max_eq_left (by omega)
      omega
    refine Rep.of_multiple (k := ulpExp f (rmag f q)) N ?_ (le_refl _) (habs.trans_lt hno)
    rw [hue, habs, ← hN, ← zpow_add₀ (by norm_num : (2 : ℚ) ≠ 0), heq]
    congr 1
    omega
  · have hlog : ilog2 |rmag f q| ≤ max (ilog2 |q|) f.emin := by
      have h1 := (ilog2_spec _ (abs_pos.mpr hv0)).1
      have := two_zpow_lt_iff.mp ((h1.trans (le_of_eq habs)).trans_lt hlt)
      omega
    refine Rep.of_multiple (k := ulpExp f q) (rne (|q| / (2 : ℚ) ^ ulpExp f q)) ?_ ?_
      (habs.trans_lt hno)
    · rw [habs]; rfl
    · unfold ulpExp
      have : max (ilog2 |rmag f q|) f.emin ≤ max (ilog2 |q|) f.emin :=
        max_le hlog (le_max_right _ _)
      omega

/-- Every result of rounding is a value of the target format. -/
theorem roundQ_inFormat {f : Format} (hp : 1 ≤ f.prec) (q : ℚ) :
    (roundQ f q).inFormat f := by
  unfold roundQ
  split_ifs with h0 hov hz hneg
  · trivial
  · trivial
  · trivial
  · exact ⟨neg_ne_zero.mpr hz, (rep_rmag hp h0 (not_le.mp hov)).neg⟩
  · exact ⟨hz, rep_rmag hp h0 (not_le.mp hov)⟩

theorem roundQ_pos {f : Format} {q : ℚ} (hq : 0 < q) :
    roundQ f q = if (2 : ℚ) ^ (f.emax + 1) ≤ rmag f q then .inf false
      else if rmag f q = 0 then .zero false else .num (rmag f q) := by
  unfold roundQ
  rw [if_neg hq.ne']
  have h : ¬ q < 0 := not_lt.mpr hq.le
  simp [h]

theorem roundQ_neg {f : Format} {q : ℚ} (hq : q < 0) :
    roundQ f q = if (2 : ℚ) ^ (f.emax + 1) ≤ rmag f q then .inf true
      else if rmag f q = 0 then .zero true else .num (-rmag f q) := by
  unfold roundQ
  rw [if_neg hq.ne]
  simp [hq]

/-- Rounding is bounded above by every representable value above the argument. -/
theorem roundQ_le_rep {f : Format} (hp : 1 ≤ f.prec) {q c : ℚ} (hc : Rep f c) (h : q ≤ c) :
    roundQ f q = .inf true ∨ ((roundQ f q).isFinite = true ∧ (roundQ f q).val ≤ c) := by
  rcases lt_trichotomy q 0 with hq | hq | hq
  · rw [roundQ_neg hq]
    by_cases hov : (2 : ℚ) ^ (f.emax + 1) ≤ rmag f q
    · left; rw [if_pos hov]
    · right
      rw [if_neg hov]
      have hb : -rmag f q ≤ c := by
        by_cases hc0 : 0 ≤ c
        · have := rmag_nonneg f q; linarith
        · have h1 : 0 < -c := by linarith
          have h2 := rep_le_rmag_of_le hp hc.neg h1 (neg_le_neg h)
          rw [rmag_neg] at h2
          linarith
      split_ifs with hz
      · refine ⟨rfl, ?_⟩
        rw [hz] at hb
        simpa [FP.val] using hb
      · exact ⟨rfl, hb⟩
  · subst hq
    right
    unfold roundQ
    rw [if_pos rfl]
    exact ⟨rfl, h⟩
  · rw [roundQ_pos hq]
    right
    have hb : rmag f q ≤ c := rmag_le_of_le_rep hc hq h
    have hov : ¬ (2 : ℚ) ^ (f.emax + 1) ≤ rmag f q :=
      not_le.mpr (hb.trans_lt ((le_abs_self c).trans_lt hc.lt_overflow))
    rw [if_neg hov]
    split_ifs with hz
    · exact ⟨rfl, (hq.trans_le h).le⟩
    · exact ⟨rfl, hb⟩

/-- Rounding is bounded below by every representable value below the argument. -/
theorem rep_le_roundQ {f : Format} (hp : 1 ≤ f.prec) {q c : ℚ} (hc : Rep f c) (h : c ≤ q) :
    roundQ f q = .inf false ∨ ((roundQ f q).isFinite = true ∧ c ≤ (roundQ f q).val) := by
  rcases lt_trichotomy q 0 with hq | hq | hq
  · rw [roundQ_neg hq]
    right
    have hb : rmag f q ≤ -c := by
      have := rmag_le_of_le_rep hc.neg (neg_pos.mpr hq) (neg_le_neg h)
      rwa [rmag_neg] at this
    have hov : ¬ (2 : ℚ) ^ (f.emax + 1) ≤ rmag f q :=
      not_le.mpr (hb.trans_lt ((neg_le_abs c).trans_lt hc.lt_overflow))
    rw [if_neg hov]
    split_ifs with hz
    · exact ⟨rfl, (h.trans_lt hq).le⟩
    · exact ⟨rfl, by show c ≤ -rmag f q; linarith⟩
  · subst hq
    right
    unfold roundQ
    rw [if_pos rfl]
    exact ⟨rfl, h⟩
  · rw [roundQ_pos hq]
    by_cases hov : (2 : ℚ) ^ (f.emax + 1) ≤ rmag f q
    · left; rw [if_pos hov]
    · right
      rw [if_neg hov]
      have hb : c ≤ rmag f q := by
        by_cases hc0 : c ≤ 0
        · exact hc0.trans (rmag_nonneg f q)
        · exact rep_le_rmag_of_le hp hc (not_le.mp hc0) h
      split_ifs with hz
      · refine ⟨rfl, ?_⟩
        rw [hz] at hb
        exact hb
      · exact ⟨rfl, hb⟩

/-- Rounding a value lying between two representable values gives a finite value between
them. -/
theorem roundQ_between {f : Format} (hp : 1 ≤ f.prec) {q lo hi : ℚ} (hlo : Rep f lo)
    (hhi : Rep f hi) (h1 : lo ≤ q) (h2 : q ≤ hi) :
    (roundQ f q).isFinite = true ∧ lo ≤ (roundQ f q).val ∧ (roundQ f q).val ≤ hi := by
  rcases roundQ_le_rep hp hhi h2 with ha | ⟨hf, hv⟩
  · rcases rep_le_roundQ hp hlo h1 with hb | ⟨hf2, _⟩
    · rw [ha] at hb; cases hb
    · rw [ha] at hf2; cases hf2
  · rcases rep_le_roundQ hp hlo h1 with hb | ⟨_, hv2⟩
    · rw [hb] at hf; cases hf
    · exact ⟨hf, hv2, hv⟩

/-! ## Conversions and the accumulation step -/

theorem prec32 : 1 ≤ binary32.prec := by decide

theorem prec64 : 1 ≤ binary64.prec := by decide

theorem rep_zero (f : Format) : Rep f 0 := Or.inl rfl

theorem ofQ_ne_zero {q : ℚ} (h : q ≠ 0) : ofQ q = .num q := by
  unfold ofQ; rw [if_neg h]

theorem ofQ_zero : ofQ 0 = .zero false := by
  unfold ofQ; rw [if_pos rfl]

theorem roundQ_zero (f : Format) : roundQ f 0 = .zero false := by
  unfold roundQ; rw [if_pos rfl]

theorem cvt_of_inFormat {f : Format} {v : FP} (h : v.inFormat f) : FP.cvt f v = v := by
  cases v with
  | nan => rfl
  | inf a => rfl
  | zero a => rfl
  | num q =>
    obtain ⟨h0, hr⟩ := h
    show roundQ f q = .num q
    rw [roundQ_of_rep hr, ofQ_ne_zero h0]

theorem cvt_ofQ {f : Format} {q : ℚ} (h : Rep f q) : FP.cvt f (ofQ q) = ofQ q := by
  by_cases h0 : q = 0
  · rw [h0, ofQ_zero]; rfl
  · rw [ofQ_ne_zero h0]
    show roundQ f q = .num q
    rw [roundQ_of_rep h, ofQ_ne_zero h0]

theorem inFormat_widen {v : FP} (h : v.inFormat binary32) : v.inFormat binary64 := by
  cases v with
  | nan => trivial
  | inf a => trivial
  | zero a => trivial
  | num q => exact ⟨h.1, rep32_rep64 h.2⟩

/-- The `float` result of a rounding widens to `double` unchanged. -/
theorem cvt64_roundQ32 (q : ℚ) :
    FP.cvt binary64 (roundQ binary32 q) = roundQ binary32 q :=
  cvt_of_inFormat (inFormat_widen (roundQ_inFormat prec32 q))

/-- When the exact sum is representable in `float`, `total += x[i]` on doubles is exact. -/
theorem plusEqDouble_exact {a : ℚ} {v : FP} (ha : Rep binary32 a) (hv : v.isFinite = true)
    (hs : Rep binary32 (a + v.val)) : plusEqDouble (ofQ a) v = ofQ (a + v.val) := by
  unfold plusEqDouble
  rw [cvt_ofQ (rep32_rep64 ha)]
  cases v with
  | nan => cases hv
  | inf b => cases hv
  | zero b =>
    have hval : (FP.zero b).val = 0 := rfl
    rw [hval, add_zero]
    by_cases h0 : a = 0
    · subst h0
      rw [ofQ_zero]
      show FP.cvt binary32 (FP.zero (false && b)) = .zero false
      rfl
    · rw [ofQ_ne_zero h0]
      show FP.cvt binary32 (roundQ binary64 a) = .num a
      rw [roundQ_of_rep (rep32_rep64 ha), cvt_ofQ ha, ofQ_ne_zero h0]
  | num q =>
    have hval : (FP.num q).val = q := rfl
    rw [hval] at hs ⊢
    by_cases h0 : a = 0
    · subst h0
      rw [ofQ_zero, zero_add] at *
      show FP.cvt binary32 (roundQ binary64 q) = ofQ q
      rw [roundQ_of_rep (rep32_rep64 hs), cvt_ofQ hs]
    · rw [ofQ_ne_zero h0]
      show FP.cvt binary32 (roundQ binary64 (a + q)) = ofQ (a + q)
      rw [roundQ_of_rep (rep32_rep64 hs), cvt_ofQ hs]

theorem sumQ_cons (v : FP) (vs : List FP) : sumQ (v :: vs) = v.val + sumQ vs := by
  unfold sumQ; simp

/-- With exact running sums the accumulator ends holding the exact sum. -/
theorem foldl_plusEqDouble_exact : ∀ (x : List FP) (a : ℚ), Rep binary32 a →
    exactSums a x = true → x.foldl plusEqDouble (ofQ a) = ofQ (a + sumQ x) := by
  intro x
  induction x with
  | nil => intro a _ _; simp [sumQ]
  | cons v vs ih =>
    intro a ha hx
    unfold exactSums at hx
    simp only [Bool.and_eq_true, decide_eq_true_eq] at hx
    obtain ⟨⟨hv, hs⟩, hrest⟩ := hx
    rw [List.foldl_cons, plusEqDouble_exact ha hv hs, ih _ hs hrest, sumQ_cons, add_assoc]

/-! ## The loop and the body of `meanC` -/

/-- The loop with `k` iterations left from index `i` folds `plusEq` over `x[i..i+k)`;
in particular it never reads outside the vector when `i + k ≤ x.size()`. -/
theorem loop_eq_foldl {T : Type} (plusEq : FP → T → FP) (x : List T) :
    ∀ (k i : Nat) (total : FP), i + k ≤ x.length →
      loop plusEq x k i total = some (((x.drop i).take k).foldl plusEq total) := by
  intro k
  induction k with
  | zero => intro i total _; simp [loop]
  | succ k ih =>
    intro i total h
    have hi : i < x.length := by omega
    unfold loop
    rw [List.getElem?_eq_getElem hi]
    simp only
    rw [ih (i + 1) _ (by omega), List.drop_eq_getElem_cons hi, List.take_succ_cons,
      List.foldl_cons]

theorem sizeToInt_of_lt {len : Nat} (h : len < 2147483648) : sizeToInt len = (len : Int) := by
  unfold sizeToInt; omega

theorem sizeToInt_le (len : Nat) : sizeToInt len ≤ (len : Int) := by
  unfold sizeToInt; omega

/-- For a vector shorter than `2^31` the body of `meanC` is the fold of `+=` over the whole
vector followed by the `float` division by `n`. -/
theorem meanCore_eq {T : Type} (plusEq : FP → T → FP) (x : List T)
    (h : x.length < 2147483648) :
    meanCore plusEq x =
      some (FP.div binary32 (x.foldl plusEq (.zero false)) (FP.ofInt binary32 x.length)) := by
  unfold meanCore
  simp only
  rw [sizeToInt_of_lt h, Int.toNat_ofNat, loop_eq_foldl plusEq x x.length 0 _ (by omega)]
  simp

/-- The call `meanC(x)` always returns: the loop never reads outside the vector. -/
theorem meanCore_returns {T : Type} (plusEq : FP → T → FP) (x : List T) :
    ∃ r, meanCore plusEq x = some r := by
  unfold meanCore
  simp only
  have h : 0 + (sizeToInt x.length).toNat ≤ x.length := by
    have := sizeToInt_le x.length
    omega
  rw [loop_eq_foldl plusEq x _ 0 _ h]
  exact ⟨_, rfl⟩

/-! ## Exact accumulation -/

theorem emin32 : binary32.emin = -126 := by decide

/-- Integers of magnitude at most `2^24` are `float` values. -/
theorem rep_int32 (z : Int) (h : |z| ≤ 16777216) : Rep binary32 (z : ℚ) := by
  by_cases h0 : z = 0
  · left; exact_mod_cast h0
  have hq0 : (z : ℚ) ≠ 0 := by exact_mod_cast h0
  have habs : |(z : ℚ)| = ((|z| : Int) : ℚ) := by push_cast; rfl
  have hle : |(z : ℚ)| ≤ 16777216 := by rw [habs]; exact_mod_cast h
  have hthr : |(z : ℚ)| < (2 : ℚ) ^ (binary32.emax + 1) := by
    have : (2 : ℚ) ^ (binary32.emax + 1) = 340282366920938463463374607431768211456 := by
      norm_num [binary32]
    rw [this]; linarith
  have hspec := ilog2_spec _ (abs_pos.mpr hq0)
  rcases eq_or_lt_of_le hle with heq | hlt
  · have hlog : ilog2 |(z : ℚ)| = 24 :=
      ilog2_unique _ 24 (by rw [heq]; norm_num) (by rw [heq]; norm_num)
    refine Rep.of_multiple (k := 1) 8388608 (by rw [heq]; norm_num) ?_ hthr
    unfold ulpExp
    rw [hlog, emin32]
    decide
  · have hlog : ilog2 |(z : ℚ)| < 24 := by
      have h1 : (2 : ℚ) ^ ilog2 |(z : ℚ)| < (2 : ℚ) ^ (24 : Int) := by
        refine hspec.1.trans_lt ?_
        norm_num
        exact hlt
      exact two_zpow_lt_iff.mp h1
    refine Rep.of_multiple (k := 0) |z| (by rw [habs]; simp) ?_ hthr
    unfold ulpExp
    rw [emin32]
    have : max (ilog2 |(z : ℚ)|) (-126) ≤ 23 := max_le (by omega) (by decide)
    have hp : ((binary32.prec : Nat) : Int) = 24 := rfl
    omega

/-- Conversion of the length `n` to `float` is exact for `1 ≤ n ≤ 2^24`. -/
theorem ofInt32_small {n : Nat} (h1 : 1 ≤ n) (h2 : n ≤ 16777216) :
    FP.ofInt binary32 (n : Int) = .num (n : ℚ) := by
  unfold FP.ofInt
  have hr : Rep binary32 (((n : Int) : ℚ)) := rep_int32 n (by rw [abs_of_nonneg] <;> omega)
  rw [roundQ_of_rep hr, ofQ_ne_zero (by norm_cast; omega)]
  norm_cast

theorem div_ofQ_num (f : Format) (a : ℚ) {m : ℚ} (hm : 0 < m) :
    FP.div f (ofQ a) (.num m) = roundQ f (a / m) := by
  by_cases h0 : a = 0
  · subst h0
    rw [ofQ_zero, zero_div, roundQ_zero]
    have : ¬ m < 0 := not_lt.mpr hm.le
    simp [FP.div, this]
  · rw [ofQ_ne_zero h0]; rfl

/-- With exact running sums, `meanC<double>` divides the exact sum by the `float` image
of `n`. -/
theorem meanC_double_exact (x : List FP) (hlen : x.length < 2147483648)
    (hx : exactSums 0 x = true) :
    meanC_double x = some (FP.cvt binary64
      (FP.div binary32 (ofQ (sumQ x)) (FP.ofInt binary32 x.length))) := by
  unfold meanC_double
  rw [meanCore_eq _ _ hlen]
  have h := foldl_plusEqDouble_exact x 0 (rep_zero _) hx
  rw [ofQ_zero, zero_add] at h
  rw [h]
  rfl

/-- With exact running sums and `1 ≤ n ≤ 2^24`, `meanC<double>` returns the arithmetic
mean rounded once to `float`. -/
theorem meanC_double_exact_small (x : List FP) (h1 : 1 ≤ x.length)
    (h2 : x.length ≤ 16777216) (hx : exactSums 0 x = true) :
    meanC_double x = some (roundQ binary32 (sumQ x / x.length)) := by
  rw [meanC_double_exact x (by omega) hx, ofInt32_small h1 h2,
    div_ofQ_num _ _ (by exact_mod_cast h1), cvt64_roundQ32]

/-- Narrowing the `double` result into `float mean` and wrapping it changes nothing when
the result is already the image of a `float`. -/
theorem mean_wrap_of_roundQ32 (x : List FP) (q : ℚ)
    (h : meanC_double x = some (roundQ binary32 q)) :
    mean_wrap x = some (roundQ binary32 q) := by
  unfold mean_wrap
  rw [h]
  show some (FP.cvt binary64 (FP.cvt binary32 (roundQ binary32 q))) = _
  rw [cvt_of_inFormat (roundQ_inFormat prec32 q), cvt64_roundQ32]

/-! ## Concrete runs -/

/-- The rounding function agrees with IEEE 754 on known values: `0.1f`, the largest
`float`, the overflow threshold and its tie, the smallest subnormal and the ties around it,
ties at `2^24`, `0.1` and a tie at `2^53` in `double`. -/
theorem rounding_sanity :
    roundQ binary32 (1 / 10) = .num (13421773 / 134217728) ∧
    roundQ binary32 (2 ^ 128 - 2 ^ 104) = .num (2 ^ 128 - 2 ^ 104) ∧
    roundQ binary32 (2 ^ 128 - 2 ^ 103 - 1) = .num (2 ^ 128 - 2 ^ 104) ∧
    roundQ binary32 (2 ^ 128 - 2 ^ 103) = .inf false ∧
    roundQ binary32 (-(2 ^ 128)) = .inf true ∧
    roundQ binary32 ((2 : ℚ) ^ (-149 : Int)) = .num ((2 : ℚ) ^ (-149 : Int)) ∧
    roundQ binary32 ((2 : ℚ) ^ (-150 : Int)) = .zero false ∧
    roundQ binary32 (-(2 : ℚ) ^ (-150 : Int)) = .zero true ∧
    roundQ binary32 (3 * (2 : ℚ) ^ (-150 : Int)) = .num ((2 : ℚ) ^ (-148 : Int)) ∧
    roundQ binary32 16777217 = .num 16777216 ∧
    roundQ binary32 16777219 = .num 16777220 ∧
    roundQ binary64 (1 / 10) = .num (3602879701896397 / 36028797018963968) ∧
    roundQ binary64 9007199254740993 = .num 9007199254740992 := by decide!

theorem run_pow24_1 :
    meanC_double [.num 16777216, .num 1] = some (.num 8388608) := by decide!

/-! ## C1 -/

/-- C1, refuted as stated: `meanC` does not return the arithmetic mean of every non-empty
sequence of finite doubles. On `[2^24, 1]` the `float` accumulator rounds `2^24 + 1` to
`2^24`, and the result is `8388608`, not `8388608.5`. -/
theorem C1_counterexample :
    ¬ ∀ x : List FP, x ≠ [] → (∀ v ∈ x, v.isFinite = true ∧ v.inFormat binary64) →
      ∃ r, meanC_double x = some r ∧ r.isFinite = true ∧ r.val = sumQ x / x.length := by
  intro h
  obtain ⟨r, hr, _, hv⟩ := h [.num 16777216, .num 1] (by simp) (by decide!)
  rw [run_pow24_1] at hr
  cases hr
  revert hv
  norm_num [sumQ, FP.val]

/-- C1, amended: for a non-empty sequence of at most `2^24` finite doubles whose running
sums are all exactly representable in single precision, `meanC` and `mean_wrap` return the
arithmetic mean `(x[0] + ... + x[n-1]) / n` rounded to single precision; when the mean is
itself representable in single precision they return exactly the mean. -/
theorem C1_mean_of_exact_sums (x : List FP) (hne : x ≠ []) (hlen : x.length ≤ 16777216)
    (hx : exactSums 0 x = true) :
    meanC_double x = some (roundQ binary32 (sumQ x / x.length)) ∧
    mean_wrap x = some (roundQ binary32 (sumQ x / x.length)) ∧
    (Rep binary32 (sumQ x / x.length) →
      meanC_double x = some (ofQ (sumQ x / x.length)) ∧
      mean_wrap x = some (ofQ (sumQ x / x.length))) := by
  have h1 : 1 ≤ x.length := List.length_pos.mpr hne
  have hm := meanC_double_exact_small x h1 hlen hx
  have hw := mean_wrap_of_roundQ32 x _ hm
  refine ⟨hm, hw, fun hr => ?_⟩
  rw [hm, hw, roundQ_of_rep hr]
  exact ⟨rfl, rfl⟩

/-- C1, amended, at `[42, 34]`. -/
theorem C1_mean_of_exact_sums_witness :
    meanC_double [.num 42, .num 34] =
        some (roundQ binary32 (sumQ [.num 42, .num 34] / ([FP.num 42, FP.num 34].length : ℚ))) ∧
    mean_wrap [.num 42, .num 34] =
        some (roundQ binary32 (sumQ [.num 42, .num 34] / ([FP.num 42, FP.num 34].length : ℚ))) ∧
    (Rep binary32 (sumQ [.num 42, .num 34] / ([FP.num 42, FP.num 34].length : ℚ)) →
      meanC_double [.num 42, .num 34] =
        some (ofQ (sumQ [.num 42, .num 34] / ([FP.num 42, FP.num 34].length : ℚ))) ∧
      mean_wrap [.num 42, .num 34] =
        some (ofQ (sumQ [.num 42, .num 34] / ([FP.num 42, FP.num 34].length : ℚ)))) :=
  C1_mean_of_exact_sums [.num 42, .num 34] (by simp) (by decide) (by decide!)

/-! ## C2 -/

/-- C2: `mean_wrap` applied to the two-element sequence `[42, 34]` returns exactly `38`. -/
theorem C2_mean_wrap_42_34 : mean_wrap [.num 42, .num 34] = some (.num 38) := by decide!

/-! ## C3 -/

/-- C3: on the empty sequence `meanC` over floating-point elements does not fail: the loop
body never runs and the accumulator stays `0`, `n` converts to `0`, the division is the
floating-point `0 / 0`, and the value returned (also through `mean_wrap`) is NaN. -/
theorem C3_empty_is_nan :
    loop plusEqDouble [] (sizeToInt ([] : List FP).length).toNat 0 (.zero false)
      = some (.zero false) ∧
    loop plusEqFloat [] (sizeToInt ([] : List FP).length).toNat 0 (.zero false)
      = some (.zero false) ∧
    FP.div binary32 (.zero false) (FP.ofInt binary32 (sizeToInt ([] : List FP).length)) = .nan ∧
    meanC_double [] = some .nan ∧ meanC_float [] = some .nan ∧
    mean_wrap [] = some .nan := by decide!

/-! ## C4 -/

theorem run_overflow :
    meanC_double [.num 340282366920938463463374607431768211456] = some (.inf false) := by
  decide!

theorem roundQ_isNaN (f : Format) (q : ℚ) : (roundQ f q).isNaN = false := by
  unfold roundQ
  split_ifs <;> rfl

theorem cvt_isNaN (f : Format) (v : FP) : (FP.cvt f v).isNaN = v.isNaN := by
  cases v with
  | nan => rfl
  | inf a => rfl
  | zero a => rfl
  | num q => exact roundQ_isNaN f q

theorem cvt_inFormat {f : Format} (hp : 1 ≤ f.prec) (v : FP) : (FP.cvt f v).inFormat f := by
  cases v with
  | nan => trivial
  | inf a => trivial
  | zero a => trivial
  | num q => exact roundQ_inFormat hp q

theorem add_isNaN_of_finite (f : Format) {a b : FP} (ha : a.isNaN = false)
    (hb : b.isFinite = true) : (FP.add f a b).isNaN = false := by
  cases b with
  | nan => simp [FP.isFinite] at hb
  | inf c => simp [FP.isFinite] at hb
  | zero c =>
    cases a with
    | nan => simp [FP.isNaN] at ha
    | inf d => rfl
    | zero d => rfl
    | num p => exact roundQ_isNaN f _
  | num q =>
    cases a with
    | nan => simp [FP.isNaN] at ha
    | inf d => rfl
    | zero d => exact roundQ_isNaN f _
    | num p => exact roundQ_isNaN f _

/-- Adding a finite element never turns the accumulator into a NaN. -/
theorem plusEqDouble_isNaN {t v : FP} (ht : t.isNaN = false) (hv : v.isFinite = true) :
    (plusEqDouble t v).isNaN = false := by
  unfold plusEqDouble
  rw [cvt_isNaN]
  exact add_isNaN_of_finite _ (by rw [cvt_isNaN]; exact ht) hv

theorem foldl_plusEqDouble_isNaN : ∀ (x : List FP) (t : FP), t.isNaN = false →
    (∀ v ∈ x, v.isFinite = true) → (x.foldl plusEqDouble t).isNaN = false := by
  intro x
  induction x with
  | nil => intro t ht _; exact ht
  | cons v vs ih =>
    intro t ht hx
    rw [List.foldl_cons]
    exact ih _ (plusEqDouble_isNaN ht (hx v (List.mem_cons_self _ _)))
      (fun w hw => hx w (List.mem_cons_of_mem _ hw))

/-- The accumulator always holds a `float`. -/
theorem foldl_plusEqDouble_inFormat : ∀ (x : List FP) (t : FP), t.inFormat binary32 →
    (x.foldl plusEqDouble t).inFormat binary32 := by
  intro x
  induction x with
  | nil => intro t ht; exact ht
  | cons v vs ih =>
    intro t _
    rw [List.foldl_cons]
    exact ih _ (cvt_inFormat prec32 _)

theorem rep32_one : Rep binary32 1 := by decide!

theorem rep32_pow31 : Rep binary32 2147483648 := by decide!

/-- The length of a non-empty vector shorter than `2^31` converts to a finite `float` that
is at least `1`. -/
theorem ofInt32_pos {n : Nat} (h1 : 1 ≤ n) (h2 : n < 2147483648) :
    ∃ m : ℚ, FP.ofInt binary32 (n : Int) = .num m ∧ 1 ≤ m := by
  have hlo : (1 : ℚ) ≤ ((n : Int) : ℚ) := by exact_mod_cast h1
  have hhi : ((n : Int) : ℚ) ≤ 2147483648 := by exact_mod_cast h2.le
  obtain ⟨hf, hv1, _⟩ := roundQ_between prec32 rep32_one rep32_pow31 hlo hhi
  unfold FP.ofInt
  cases hr : roundQ binary32 ((n : Int) : ℚ) with
  | nan => rw [hr] at hf; cases hf
  | inf a => rw [hr] at hf; cases hf
  | zero a =>
    rw [hr] at hv1
    have : (1 : ℚ) ≤ 0 := hv1
    linarith
  | num m =>
    rw [hr] at hv1
    exact ⟨m, rfl, hv1⟩

theorem div_inFormat {f : Format} (hp : 1 ≤ f.prec) (a b : FP) : (FP.div f a b).inFormat f := by
  cases a <;> cases b <;> first | trivial | exact roundQ_inFormat hp _

/-- Dividing a `float` that is not NaN by a finite `float` at least `1` gives no NaN, and
gives a finite value exactly when the dividend is finite. -/
theorem div32_by_pos {t : FP} {m : ℚ} (ht : t.inFormat binary32) (hn : t.isNaN = false)
    (hm : 1 ≤ m) :
    (FP.div binary32 t (.num m)).isNaN = false ∧
    (FP.div binary32 t (.num m)).isFinite = t.isFinite := by
  cases t with
  | nan => cases hn
  | inf a => exact ⟨rfl, rfl⟩
  | zero a => exact ⟨rfl, rfl⟩
  | num p =>
    refine ⟨roundQ_isNaN _ _, ?_⟩
    have hrep : Rep binary32 p := ht.2
    have hle : |p / m| ≤ |p| := by
      rw [abs_div]
      exact div_le_self (abs_nonneg p) (hm.trans (le_abs_self m))
    obtain ⟨h1, h2⟩ := abs_le.mp hle
    exact (roundQ_between prec32 hrep.abs.neg hrep.abs h1 h2).1

/-- C4, refuted as stated: a non-empty sequence of finite doubles can give an infinity.
The single double `2^128` does not fit in the `float` accumulator, which becomes `+inf`,
and `meanC` returns `+inf`. -/
theorem C4_counterexample :
    ¬ ∀ x : List FP, x ≠ [] → (∀ v ∈ x, v.isFinite = true ∧ v.inFormat binary64) →
      ∃ r, meanC_double x = some r ∧ r.isFinite = true := by
  intro h
  obtain ⟨r, hr, hf⟩ :=
    h [.num 340282366920938463463374607431768211456] (by simp) (by decide!)
  rw [run_overflow] at hr
  cases hr
  cases hf

/-- C4, amended: for a non-empty sequence of fewer than `2^31` finite values, `meanC`
returns (it does not fail), the value returned is never NaN, and it is a finite number
exactly when the `float` accumulator is still finite after the loop (an accumulator that
overflowed to an infinity is returned as that infinity). -/
theorem C4_finite_input_never_nan (x : List FP) (hne : x ≠ [])
    (hlen : x.length < 2147483648) (hfin : ∀ v ∈ x, v.isFinite = true) :
    ∃ t r, loop plusEqDouble x (sizeToInt x.length).toNat 0 (.zero false) = some t ∧
      meanC_double x = some r ∧ r.isNaN = false ∧ r.isFinite = t.isFinite := by
  have h1 : 1 ≤ x.length := List.length_pos.mpr hne
  obtain ⟨m, hm, hm1⟩ := ofInt32_pos h1 hlen
  have htn := foldl_plusEqDouble_isNaN x (.zero false) rfl hfin
  have htf := foldl_plusEqDouble_inFormat x (.zero false) trivial
  obtain ⟨hd1, hd2⟩ := div32_by_pos htf htn hm1
  refine ⟨x.foldl plusEqDouble (.zero false),
    FP.div binary32 (x.foldl plusEqDouble (.zero false)) (.num m), ?_, ?_, hd1, hd2⟩
  · rw [sizeToInt_of_lt hlen, Int.toNat_ofNat, loop_eq_foldl _ _ _ _ _ (by omega)]
    simp
  · unfold meanC_double
    rw [meanCore_eq _ _ hlen, hm]
    show some (FP.cvt binary64 _) = _
    rw [cvt_of_inFormat (inFormat_widen (div_inFormat prec32 _ _))]

/-- C4, amended, at `[42, 34]`. -/
theorem C4_finite_input_never_nan_witness :
    ∃ t r, loop plusEqDouble [.num 42, .num 34]
        (sizeToInt [FP.num 42, FP.num 34].length).toNat 0 (.zero false) = some t ∧
      meanC_double [.num 42, .num 34] = some r ∧ r.isNaN = false ∧
      r.isFinite = t.isFinite :=
  C4_finite_input_never_nan [.num 42, .num 34] (by simp) (by decide) (by decide)

/-! ## C5 -/

theorem run_pow24_plus_1 : meanC_double [.num 16777217] = some (.num 16777216) := by decide!

theorem listMin_mem : ∀ (l : List ℚ), l ≠ [] → listMin l ∈ l := by
  intro l
  induction l with
  | nil => intro h; exact absurd rfl h
  | cons a t ih =>
    intro _
    cases t with
    | nil => simp [listMin]
    | cons b t2 =>
      have h := ih (by simp)
      unfold listMin
      rcases min_choice a (listMin (b :: t2)) with hc | hc
      · rw [hc]; exact List.mem_cons_self _ _
      · rw [hc]; exact List.mem_cons_of_mem _ h

theorem listMax_mem : ∀ (l : List ℚ), l ≠ [] → listMax l ∈ l := by
  intro l
  induction l with
  | nil => intro h; exact absurd rfl h
  | cons a t ih =>
    intro _
    cases t with
    | nil => simp [listMax]
    | cons b t2 =>
      have h := ih (by simp)
      unfold listMax
      rcases max_choice a (listMax (b :: t2)) with hc | hc
      · rw [hc]; exact List.mem_cons_self _ _
      · rw [hc]; exact List.mem_cons_of_mem _ h

theorem listMin_le : ∀ (l : List ℚ) (a : ℚ), a ∈ l → listMin l ≤ a := by
  intro l
  induction l with
  | nil => intro a h; cases h
  | cons b t ih =>
    intro a ha
    cases t with
    | nil =>
      have : a = b := by simpa using ha
      rw [this]; exact le_refl _
    | cons c t2 =>
      unfold listMin
      rcases List.mem_cons.mp ha with h | h
      · rw [h]; exact min_le_left _ _
      · exact (min_le_right _ _).trans (ih a h)

theorem le_listMax : ∀ (l : List ℚ) (a : ℚ), a ∈ l → a ≤ listMax l := by
  intro l
  induction l with
  | nil => intro a h; cases h
  | cons b t ih =>
    intro a ha
    cases t with
    | nil =>
      have : a = b := by simpa using ha
      rw [this]; exact le_refl _
    | cons c t2 =>
      unfold listMax
      rcases List.mem_cons.mp ha with h | h
      · rw [h]; exact le_max_left _ _
      · exact (ih a h).trans (le_max_right _ _)

theorem length_mul_le_sum (m : ℚ) : ∀ (l : List ℚ), (∀ a ∈ l, m ≤ a) →
    m * l.length ≤ l.sum := by
  intro l
  induction l with
  | nil => intro _; simp
  | cons b t ih =>
    intro h
    have h1 := h b (List.mem_cons_self _ _)
    have h2 := ih (fun a ha => h a (List.mem_cons_of_mem _ ha))
    rw [List.sum_cons, List.length_cons]
    push_cast
    linarith

theorem sum_le_length_mul (m : ℚ) : ∀ (l : List ℚ), (∀ a ∈ l, a ≤ m) →
    l.sum ≤ m * l.length := by
  intro l
  induction l with
  | nil => intro _; simp
  | cons b t ih =>
    intro h
    have h1 := h b (List.mem_cons_self _ _)
    have h2 := ih (fun a ha => h a (List.mem_cons_of_mem _ ha))
    rw [List.sum_cons, List.length_cons]
    push_cast
    linarith

/-- The exact mean of a non-empty list lies between its minimum and its maximum. -/
theorem exact_mean_between (l : List ℚ) (hne : l ≠ []) :
    listMin l ≤ l.sum / l.length ∧ l.sum / l.length ≤ listMax l := by
  have hpos : (0 : ℚ) < l.length := by exact_mod_cast List.length_pos.mpr hne
  constructor
  · rw [le_div_iff₀ hpos]
    exact length_mul_le_sum _ l (fun a ha => listMin_le l a ha)
  · rw [div_le_iff₀ hpos]
    exact sum_le_length_mul _ l (fun a ha => le_listMax l a ha)

/-- C5, refuted as stated: on the one-element sequence `[2^24 + 1]` the `float`
accumulator holds `2^24`, so `meanC` returns `2^24`, below the minimum element. -/
theorem C5_counterexample :
    ¬ ∀ x : List FP, x ≠ [] → (∀ v ∈ x, v.isFinite = true ∧ v.inFormat binary64) →
      ∃ r, meanC_double x = some r ∧
        listMin (x.map FP.val) ≤ r.val ∧ r.val ≤ listMax (x.map FP.val) := by
  intro h
  obtain ⟨r, hr, hlo, _⟩ := h [.num 16777217] (by simp) (by decide!)
  rw [run_pow24_plus_1] at hr
  cases hr
  revert hlo
  norm_num [listMin, FP.val]

/-- C5, amended: for a non-empty sequence of at most `2^24` elements, each exactly
representable in single precision and with all running sums exactly representable in single
precision, the value returned by `meanC` is finite and lies between the minimum and the
maximum element, inclusive. -/
theorem C5_between_min_max (x : List FP) (hne : x ≠ []) (hlen : x.length ≤ 16777216)
    (hx : exactSums 0 x = true) (hrep : ∀ v ∈ x, Rep binary32 v.val) :
    ∃ r, meanC_double x = some r ∧ r.isFinite = true ∧
      listMin (x.map FP.val) ≤ r.val ∧ r.val ≤ listMax (x.map FP.val) := by
  have h1 : 1 ≤ x.length := List.length_pos.mpr hne
  have hne2 : x.map FP.val ≠ [] := by simpa using hne
  have hrepq : ∀ a ∈ x.map FP.val, Rep binary32 a := by
    intro a ha
    obtain ⟨v, hv, rfl⟩ := List.mem_map.mp ha
    exact hrep v hv
  obtain ⟨hb1, hb2⟩ := exact_mean_between (x.map FP.val) hne2
  rw [List.length_map] at hb1 hb2
  have hres := roundQ_between prec32 (hrepq _ (listMin_mem _ hne2))
    (hrepq _ (listMax_mem _ hne2)) hb1 hb2
  exact ⟨_, meanC_double_exact_small x h1 hlen hx, hres⟩

/-- C5, amended, at `[1, 2, 4]`, whose mean `7/3` is rounded. -/
theorem C5_between_min_max_witness :
    ∃ r, meanC_double [.num 1, .num 2, .num 4] = some r ∧ r.isFinite = true ∧
      listMin ([FP.num 1, FP.num 2, FP.num 4].map FP.val) ≤ r.val ∧
      r.val ≤ listMax ([FP.num 1, FP.num 2, FP.num 4].map FP.val) :=
  C5_between_min_max [.num 1, .num 2, .num 4] (by simp) (by decide) (by decide!) (by decide!)

/-! ## C6 -/

theorem ofQ_val (q : ℚ) : (ofQ q).val = q := by
  unfold ofQ
  split_ifs with h
  · rw [h]; rfl
  · rfl

theorem ofQ_isFinite (q : ℚ) : (ofQ q).isFinite = true := by
  unfold ofQ
  split_ifs <;> rfl

theorem exactSums_replicate (q : ℚ) : ∀ (j i : Nat),
    (∀ k : Nat, k ≤ i + j → Rep binary32 ((k : ℚ) * q)) →
    exactSums ((i : ℚ) * q) (List.replicate j (ofQ q)) = true := by
  intro j
  induction j with
  | zero => intro i _; rfl
  | succ j ih =>
    intro i h
    rw [List.replicate_succ]
    unfold exactSums
    have hacc : (i : ℚ) * q + (ofQ q).val = ((i + 1 : Nat) : ℚ) * q := by
      rw [ofQ_val]; push_cast; ring
    rw [hacc]
    simp only [Bool.and_eq_true, decide_eq_true_eq]
    refine ⟨⟨ofQ_isFinite q, h (i + 1) (by omega)⟩, ?_⟩
    exact ih (i + 1) (fun k hk => h k (by omega))

theorem sumQ_replicate (q : ℚ) (n : Nat) : sumQ (List.replicate n (ofQ q)) = (n : ℚ) * q := by
  induction n with
  | zero => simp [sumQ]
  | succ n ih =>
    rw [List.replicate_succ, sumQ_cons, ih, ofQ_val]
    push_cast
    ring

/-- C6, refuted as stated: one copy of the double `2^24 + 1` gives `2^24`. -/
theorem C6_counterexample :
    ¬ ∀ (n : Nat) (v : FP), 1 ≤ n → v.isFinite = true → v.inFormat binary64 →
      ∃ r, meanC_double (List.replicate n v) = some r ∧ r.isFinite = true ∧ r.val = v.val := by
  intro h
  obtain ⟨r, hr, _, hv⟩ := h 1 (.num 16777217) (le_refl 1) rfl (by decide!)
  rw [List.replicate_one, run_pow24_plus_1] at hr
  cases hr
  revert hv
  norm_num [FP.val]

/-- C6, amended: for `1 ≤ n ≤ 2^24` and a value `v` whose multiples `k * v`, `k ≤ n`, are
all exactly representable in single precision (so that `v` is a `float` and the
accumulation never rounds), `meanC` and `mean_wrap` applied to `n` copies of `v` return
exactly `v`. -/
theorem C6_constant_sequence (n : Nat) (q : ℚ) (h1 : 1 ≤ n) (h2 : n ≤ 16777216)
    (hq : ∀ k : Nat, k ≤ n → Rep binary32 ((k : ℚ) * q)) :
    meanC_double (List.replicate n (ofQ q)) = some (ofQ q) ∧
    mean_wrap (List.replicate n (ofQ q)) = some (ofQ q) := by
  have hx : exactSums 0 (List.replicate n (ofQ q)) = true := by
    have := exactSums_replicate q n 0 (fun k hk => hq k (by omega))
    simpa using this
  have hlen : (List.replicate n (ofQ q)).length = n := List.length_replicate _ _
  have hm := meanC_double_exact_small _ (by rw [hlen]; exact h1) (by rw [hlen]; exact h2) hx
  have hn0 : (n : ℚ) ≠ 0 := by exact_mod_cast (by omega : n ≠ 0)
  have hmean : sumQ (List.replicate n (ofQ q)) /
      ((List.replicate n (ofQ q)).length : ℚ) = q := by
    rw [sumQ_replicate, hlen, mul_comm, mul_div_assoc, div_self hn0, mul_one]
  have hrq : Rep binary32 q := by
    have := hq 1 h1
    simpa using this
  have hw := mean_wrap_of_roundQ32 _ _ hm
  rw [hmean, roundQ_of_rep hrq] at hm hw
  exact ⟨hm, hw⟩

/-- C6, amended, at three copies of `42`. -/
theorem C6_constant_sequence_witness :
    meanC_double (List.replicate 3 (ofQ 42)) = some (ofQ 42) ∧
    mean_wrap (List.replicate 3 (ofQ 42)) = some (ofQ 42) :=
  C6_constant_sequence 3 42 (by decide) (by decide) (by decide!)

/-! ## C7 -/

theorem run_big_first :
    meanC_double [.num 16777216, .num 1, .num 1] = some (.num (11184811 / 2)) := by decide!

theorem run_big_last :
    meanC_double [.num 1, .num 1, .num 16777216] = some (.num 5592406) := by decide!

/-- C7, refuted as stated: `[2^24, 1, 1]` and its reordering `[1, 1, 2^24]` give different
results (`5592405.5` and `5592406`), because the `float` accumulator absorbs each `1` added
after `2^24` but not the two added before it. -/
theorem C7_counterexample :
    ¬ ∀ x y : List FP, x.Perm y → (∀ v ∈ x, v.isFinite = true ∧ v.inFormat binary64) →
      ∃ r s, meanC_double x = some r ∧ meanC_double y = some s ∧ r.val = s.val := by
  intro h
  obtain ⟨r, s, hr, hs, hv⟩ := h [.num 16777216, .num 1, .num 1]
    [.num 1, .num 1, .num 16777216] (by decide) (by decide!)
  rw [run_big_first] at hr
  rw [run_big_last] at hs
  cases hr
  cases hs
  revert hv
  norm_num [FP.val]

theorem sumQ_perm {x y : List FP} (h : x.Perm y) : sumQ x = sumQ y :=
  (h.map FP.val).sum_eq

/-- C7, amended: for two orderings of the same fewer than `2^31` elements, in both of
which every running sum is exactly representable in single precision, `meanC` (and
`mean_wrap`) returns the same value. -/
theorem C7_permutation_exact_sums (x y : List FP) (hp : x.Perm y)
    (hlen : x.length < 2147483648) (hx : exactSums 0 x = true) (hy : exactSums 0 y = true) :
    meanC_double y = meanC_double x ∧ mean_wrap y = mean_wrap x := by
  have hl : y.length = x.length := hp.length_eq.symm
  have h : meanC_double y = meanC_double x := by
    rw [meanC_double_exact x hlen hx, meanC_double_exact y (by rw [hl]; exact hlen) hy,
      sumQ_perm hp, hl]
  refine ⟨h, ?_⟩
  unfold mean_wrap
  rw [h]

/-- C7, amended, at `[1, 2, 4]` and `[4, 1, 2]`. -/
theorem C7_permutation_exact_sums_witness :
    meanC_double [.num 4, .num 1, .num 2] = meanC_double [.num 1, .num 2, .num 4] ∧
    mean_wrap [.num 4, .num 1, .num 2] = mean_wrap [.num 1, .num 2, .num 4] :=
  C7_permutation_exact_sums [.num 1, .num 2, .num 4] [.num 4, .num 1, .num 2]
    (by decide) (by decide) (by decide!) (by decide!)

/-! ## C8 -/

/-- C8: `meanC` applied to `[1, 2, 3]` returns exactly `2`, at each element type (`double`,
`float`, `int`) and through `mean_wrap`. -/
theorem C8_mean_1_2_3 :
    meanC_double [.num 1, .num 2, .num 3] = some (.num 2) ∧
    meanC_float [.num 1, .num 2, .num 3] = some (.num 2) ∧
    meanC_int [1, 2, 3] = some 2 ∧
    mean_wrap [.num 1, .num 2, .num 3] = some (.num 2) := by decide!

/-! ## Rounding error -/

/-- Rounding moves a value by at most half a unit in the last place. -/
theorem rmag_err (f : Format) (q : ℚ) :
    |rmag f q - (|q|)| ≤ (2 : ℚ) ^ ulpExp f q / 2 := by
  have hu : (0 : ℚ) < (2 : ℚ) ^ ulpExp f q := two_zpow_pos _
  have h := rne_err (|q| / (2 : ℚ) ^ ulpExp f q)
  have e : rmag f q - |q| =
      ((rne (|q| / (2 : ℚ) ^ ulpExp f q) : ℚ) - |q| / (2 : ℚ) ^ ulpExp f q) *
        (2 : ℚ) ^ ulpExp f q := by
    unfold rmag
    field_simp
  rw [e, abs_mul, abs_of_pos hu]
  calc _ ≤ 1 / 2 * (2 : ℚ) ^ ulpExp f q := mul_le_mul_of_nonneg_right h hu.le
    _ = (2 : ℚ) ^ ulpExp f q / 2 := by ring

/-- In the normal range half a unit in the last place is at most `2^(-prec)` times the
value. -/
theorem half_ulp_le {f : Format} {q : ℚ} (hn : (2 : ℚ) ^ f.emin ≤ |q|) :
    (2 : ℚ) ^ ulpExp f q / 2 ≤ |q| / (2 : ℚ) ^ f.prec := by
  have hpos : 0 < |q| := lt_of_lt_of_le (two_zpow_pos _) hn
  obtain ⟨s1, s2⟩ := ilog2_spec _ hpos
  have he : f.emin ≤ ilog2 |q| := by
    have := two_zpow_lt_iff.mp (hn.trans_lt s2)
    omega
  have hE : ulpExp f q = ilog2 |q| - (f.prec : Int) + 1 := by
    unfold ulpExp; rw [max_eq_left he]
  have hp : (0 : ℚ) < (2 : ℚ) ^ f.prec := by positivity
  have hval : (2 : ℚ) ^ ulpExp f q / 2 = (2 : ℚ) ^ ilog2 |q| / (2 : ℚ) ^ f.prec := by
    rw [hE, two_zpow_succ, zpow_sub₀ (by norm_num : (2 : ℚ) ≠ 0), zpow_natCast]
    ring
  rw [hval]
  exact div_le_div_of_nonneg_right s1 hp.le

/-- A finite rounding result has the sign of the argument and the rounded magnitude. -/
theorem roundQ_val_of_finite {f : Format} {q : ℚ} (hf : (roundQ f q).isFinite = true) :
    |(roundQ f q).val - q| = |rmag f q - (|q|)| := by
  rcases lt_trichotomy q 0 with hq | hq | hq
  · rw [roundQ_neg hq] at hf ⊢
    rw [abs_of_neg hq]
    split_ifs at hf ⊢ with h1 h2
    · cases hf
    · rw [h2]
      show |(0 : ℚ) - q| = _
      rw [zero_sub, zero_sub, abs_neg, neg_neg]
    · show |(-rmag f q) - q| = _
      rw [← abs_neg]
      congr 1
      ring
  · subst hq
    have : rmag f 0 = 0 := by unfold rmag; simp [rne]
    rw [roundQ_zero, this]
    simp [FP.val]
  · rw [roundQ_pos hq] at hf ⊢
    rw [abs_of_pos hq]
    split_ifs at hf ⊢ with h1 h2
    · cases hf
    · rw [h2]; rfl
    · rfl

/-- Relative error of one rounding in the normal range, below a representable bound. -/
theorem roundQ_rel_err {f : Format} (hp : 1 ≤ f.prec) {q c : ℚ}
    (hn : (2 : ℚ) ^ f.emin ≤ |q|) (hc : Rep f c) (hqc : |q| ≤ c) :
    (roundQ f q).isFinite = true ∧ |(roundQ f q).val - q| ≤ |q| / (2 : ℚ) ^ f.prec := by
  obtain ⟨h1, h2⟩ := abs_le.mp hqc
  have hf := (roundQ_between hp hc.neg hc h1 h2).1
  refine ⟨hf, ?_⟩
  rw [roundQ_val_of_finite hf]
  exact (rmag_err f q).trans (half_ulp_le hn)

/-! ## C9 -/

theorem rep_nat32 (k : Nat) (h : k ≤ 16777216) : Rep binary32 (k : ℚ) := by
  have := rep_int32 (k : Int) (by rw [abs_of_nonneg] <;> omega)
  rwa [Int.cast_natCast] at this

theorem rmag_zero (f : Format) : rmag f 0 = 0 := by
  unfold rmag; simp [rne]

/-- The `float` quotient of two naturals up to `2^24` has the integer part of the exact
quotient: rounding never reaches the next integer. -/
theorem floor_rmag_div (S n : Nat) (hn1 : 1 ≤ n) (hn2 : n ≤ 16777216) (hS : S ≤ 16777216) :
    rmag binary32 ((S : ℚ) / n) < 16777217 ∧
    ⌊rmag binary32 ((S : ℚ) / n)⌋ = ((S / n : Nat) : Int) := by
  have hnpos : (0 : ℚ) < (n : ℚ) := by exact_mod_cast hn1
  have hk1 : ((S / n : Nat) : ℚ) ≤ (S : ℚ) / n := by
    rw [le_div_iff₀ hnpos]
    exact_mod_cast Nat.div_mul_le_self S n
  have hk3 : (S : ℚ) + 1 ≤ (((S / n : Nat) : ℚ) + 1) * n := by
    have := Nat.lt_div_mul_add (a := S) (b := n) (by omega)
    have h2 : S + 1 ≤ (S / n + 1) * n := by rw [Nat.add_mul, Nat.one_mul]; omega
    exact_mod_cast h2
  have hkS : S / n ≤ 16777216 := (Nat.div_le_self S n).trans hS
  have hkSq : ((S / n : Nat) : ℚ) ≤ 16777216 := by exact_mod_cast hkS
  have hlow : ((S / n : Nat) : ℚ) ≤ rmag binary32 ((S : ℚ) / n) := by
    by_cases hk0 : S / n = 0
    · rw [hk0, Nat.cast_zero]; exact rmag_nonneg _ _
    · exact rep_le_rmag_of_le prec32 (rep_nat32 _ hkS)
        (by exact_mod_cast Nat.pos_of_ne_zero hk0) hk1
  have hup : rmag binary32 ((S : ℚ) / n) < ((S / n : Nat) : ℚ) + 1 := by
    by_cases hS0 : S = 0
    · subst hS0
      rw [Nat.cast_zero, zero_div, rmag_zero]
      positivity
    have hSpos : (0 : ℚ) < (S : ℚ) := by exact_mod_cast Nat.pos_of_ne_zero hS0
    have hq : (0 : ℚ) < (S : ℚ) / n := div_pos hSpos hnpos
    have habs : |(S : ℚ) / n| = (S : ℚ) / n := abs_of_pos hq
    obtain ⟨s1, s2⟩ := ilog2_spec _ (abs_pos.mpr hq.ne')
    rw [habs] at s1 s2
    have hSle : (S : ℚ) ≤ 16777216 := by exact_mod_cast hS
    have hnle : (n : ℚ) ≤ 16777216 := by exact_mod_cast hn2
    have hS1 : (1 : ℚ) ≤ (S : ℚ) := by exact_mod_cast Nat.pos_of_ne_zero hS0
    have he : (-24 : Int) ≤ ilog2 ((S : ℚ) / n) := by
      have h1 : (2 : ℚ) ^ (-24 : Int) ≤ (S : ℚ) / n := by
        rw [le_div_iff₀ hnpos]
        have : (2 : ℚ) ^ (-24 : Int) = 1 / 16777216 := by norm_num
        rw [this]
        calc 1 / 16777216 * (n : ℚ) ≤ 1 / 16777216 * 16777216 := by
              exact mul_le_mul_of_nonneg_left hnle (by norm_num)
          _ = 1 := by norm_num
          _ ≤ S := hS1
      have := two_zpow_lt_iff.mp (h1.trans_lt s2)
      omega
    have hE : ulpExp binary32 ((S : ℚ) / n) = ilog2 ((S : ℚ) / n) - 23 := by
      unfold ulpExp
      rw [habs, emin32, max_eq_left (by omega)]
      have hp : ((binary32.prec : Nat) : Int) = 24 := rfl
      omega
    have hu : (2 : ℚ) ^ ulpExp binary32 ((S : ℚ) / n) =
        (2 : ℚ) ^ ilog2 ((S : ℚ) / n) / 8388608 := by
      rw [hE, zpow_sub₀ (by norm_num : (2 : ℚ) ≠ 0)]
      norm_num
    generalize ilog2 ((S : ℚ) / n) = e at *
    have hepos : (0 : ℚ) < (2 : ℚ) ^ e := two_zpow_pos _
    have hnu : (n : ℚ) * (2 : ℚ) ^ e ≤ (S : ℚ) := by
      have := (le_div_iff₀ hnpos).mp s1
      linarith
    have hlt : (S : ℚ) / n < ((S / n : Nat) : ℚ) + 1 := by
      rw [div_lt_iff₀ hnpos]; linarith
    rcases eq_or_lt_of_le hnu with heq | hlt2
    · -- the quotient is a power of two, hence exact
      have hqe : (S : ℚ) / n = (2 : ℚ) ^ e := by
        rw [div_eq_iff hnpos.ne']; linarith
      have hs : |(S : ℚ) / n| / (2 : ℚ) ^ ulpExp binary32 ((S : ℚ) / n) =
          ((8388608 : Int) : ℚ) := by
        rw [habs, hu]
        nth_rewrite 1 [hqe]
        field_simp
      have : rmag binary32 ((S : ℚ) / n) = (S : ℚ) / n := by
        unfold rmag
        rw [hs, rne_intCast, hu, hqe]
        push_cast
        field_simp
      rw [this]; exact hlt
    · have herr := rmag_err binary32 ((S : ℚ) / n)
      rw [habs, hu] at herr
      have h1 := (abs_le.mp herr).2
      have hgap : 1 / (n : ℚ) ≤ ((S / n : Nat) : ℚ) + 1 - (S : ℚ) / n := by
        rw [div_le_iff₀ hnpos, sub_mul, div_mul_cancel₀ _ hnpos.ne']
        linarith
      have hsmall : (2 : ℚ) ^ e / 8388608 / 2 < 1 / (n : ℚ) := by
        rw [div_div, div_lt_div_iff₀ (by norm_num) hnpos]
        linarith
      linarith
  refine ⟨by linarith, ?_⟩
  rw [Int.floor_eq_iff]
  constructor
  · rw [Int.cast_natCast]; exact hlow
  · rw [Int.cast_natCast]; exact hup
theorem rep_int32n (z : Int) (h : z.natAbs ≤ 16777216) : Rep binary32 (z : ℚ) :=
  rep_int32 z (by rw [Int.abs_eq_natAbs]; exact_mod_cast h)

theorem pow128_gt : (16777217 : ℚ) < (2 : ℚ) ^ (binary32.emax + 1) := by
  norm_num [binary32]

/-- Converting the `float` quotient of an integer sum by the length to `int` gives the
C++ integer quotient (truncation toward zero). -/
theorem toInt32_roundQ_div (S : Int) (n : Nat) (hn1 : 1 ≤ n) (hn2 : n ≤ 16777216)
    (hm : S.natAbs ≤ 16777216) :
    FP.toInt32 (roundQ binary32 ((S : ℚ) / n)) = some (S.tdiv n) := by
  have hnpos : (0 : ℚ) < (n : ℚ) := by exact_mod_cast hn1
  obtain ⟨hb, hfl⟩ := floor_rmag_div S.natAbs n hn1 hn2 hm
  have hov : ¬ (2 : ℚ) ^ (binary32.emax + 1) ≤ rmag binary32 ((S.natAbs : ℚ) / n) :=
    not_le.mpr (hb.trans pow128_gt)
  have hkr : ((S.natAbs / n : Nat) : Int) ≤ 2147483647 := by
    have h1 := Nat.div_le_self S.natAbs n
    have h2 : S.natAbs / n ≤ 2147483647 := by omega
    exact_mod_cast h2
  have hk0 : (0 : Int) ≤ ((S.natAbs / n : Nat) : Int) := Int.ofNat_nonneg _
  rcases lt_trichotomy S 0 with hneg | hzero | hpos
  · have hSq : (S : ℚ) = -((S.natAbs : ℚ)) := by
      have : S = -((S.natAbs : Int)) := by omega
      calc (S : ℚ) = ((-((S.natAbs : Int)) : Int) : ℚ) := by rw [← this]
        _ = -((S.natAbs : ℚ)) := by rw [Int.cast_neg, Int.cast_natCast]
    have hq : (S : ℚ) / n < 0 := div_neg_of_neg_of_pos (by exact_mod_cast hneg) hnpos
    have hrm : rmag binary32 ((S : ℚ) / n) = rmag binary32 ((S.natAbs : ℚ) / n) := by
      rw [hSq, neg_div, rmag_neg]
    have htd : S.tdiv n = -((S.natAbs / n : Nat) : Int) := by
      have : S = -((S.natAbs : Int)) := by omega
      conv_lhs => rw [this]
      rw [Int.neg_tdiv, ← Int.ofNat_tdiv]
    rw [roundQ_neg hq, hrm, if_neg hov, htd]
    split_ifs with hz
    · rw [hz] at hfl
      simp only [Int.floor_zero] at hfl
      rw [← hfl]
      rfl
    · have hpos2 : 0 < rmag binary32 ((S.natAbs : ℚ) / n) :=
        lt_of_le_of_ne (rmag_nonneg _ _) (Ne.symm hz)
      simp only [FP.toInt32, neg_neg, neg_lt_zero, hpos2, if_true, hfl]
      rw [if_pos ⟨by linarith, by linarith⟩]
  · subst hzero
    simp [roundQ_zero, FP.toInt32]
  · have hSq : (S : ℚ) = (S.natAbs : ℚ) := by
      have : S = (S.natAbs : Int) := by omega
      calc (S : ℚ) = (((S.natAbs : Int)) : ℚ) := by rw [← this]
        _ = (S.natAbs : ℚ) := Int.cast_natCast _
    have hq : 0 < (S : ℚ) / n := div_pos (by exact_mod_cast hpos) hnpos
    have htd : S.tdiv n = ((S.natAbs / n : Nat) : Int) := by
      have : S = (S.natAbs : Int) := by omega
      conv_lhs => rw [this]
      rw [← Int.ofNat_tdiv]
    rw [roundQ_pos hq, hSq, if_neg hov, htd]
    split_ifs with hz
    · rw [hz] at hfl
      simp only [Int.floor_zero] at hfl
      rw [← hfl]
      rfl
    · have hnn : ¬ rmag binary32 ((S.natAbs : ℚ) / n) < 0 :=
        not_lt.mpr (rmag_nonneg _ _)
      simp only [FP.toInt32, hnn, if_false, hfl]
      rw [if_pos ⟨by linarith, by linarith⟩]

theorem add32_ofQ_exact {a b : ℚ} (ha : Rep binary32 a) (hb : Rep binary32 b)
    (hs : Rep binary32 (a + b)) : FP.add binary32 (ofQ a) (ofQ b) = ofQ (a + b) := by
  by_cases ha0 : a = 0
  · subst ha0
    rw [zero_add, ofQ_zero]
    by_cases hb0 : b = 0
    · subst hb0; rw [ofQ_zero]; rfl
    · rw [ofQ_ne_zero hb0]
      show roundQ binary32 b = .num b
      rw [roundQ_of_rep hb, ofQ_ne_zero hb0]
  · rw [ofQ_ne_zero ha0]
    by_cases hb0 : b = 0
    · subst hb0
      rw [add_zero, ofQ_zero]
      show roundQ binary32 a = ofQ a
      rw [roundQ_of_rep ha]
    · rw [ofQ_ne_zero hb0]
      show roundQ binary32 (a + b) = _
      rw [roundQ_of_rep hs]

/-- `total += x[i]` on ints is exact while the values stay within `2^24`. -/
theorem plusEqInt_exact (a z : Int) (ha : a.natAbs ≤ 16777216) (hz : z.natAbs ≤ 16777216)
    (hs : (a + z).natAbs ≤ 16777216) : plusEqInt (ofQ (a : ℚ)) z = ofQ ((a + z : Int) : ℚ) := by
  unfold plusEqInt FP.ofInt
  rw [roundQ_of_rep (rep_int32n z hz)]
  have h := add32_ofQ_exact (rep_int32n a ha) (rep_int32n z hz)
    (by have := rep_int32n (a + z) hs; rwa [Int.cast_add] at this)
  rw [h, Int.cast_add]

theorem foldl_plusEqInt_exact : ∀ (x : List Int) (a : Int),
    a.natAbs + (x.map Int.natAbs).sum ≤ 16777216 →
    x.foldl plusEqInt (ofQ (a : ℚ)) = ofQ ((a + x.sum : Int) : ℚ) := by
  intro x
  induction x with
  | nil => intro a _; simp
  | cons z zs ih =>
    intro a h
    rw [List.map_cons, List.sum_cons] at h
    rw [List.foldl_cons, plusEqInt_exact a z (by omega) (by omega) (by omega),
      ih (a + z) (by omega), List.sum_cons, add_assoc]

theorem exactSums_of_ints : ∀ (x : List Int) (a : Int),
    a.natAbs + (x.map Int.natAbs).sum ≤ 16777216 →
    exactSums (a : ℚ) (x.map (fun (z : Int) => ofQ (z : ℚ))) = true := by
  intro x
  induction x with
  | nil => intro a _; rfl
  | cons z zs ih =>
    intro a h
    rw [List.map_cons, List.sum_cons] at h
    rw [List.map_cons]
    unfold exactSums
    have hacc : (a : ℚ) + (ofQ (z : ℚ)).val = ((a + z : Int) : ℚ) := by
      rw [ofQ_val]; push_cast; rfl
    rw [hacc]
    simp only [Bool.and_eq_true, decide_eq_true_eq]
    exact ⟨⟨ofQ_isFinite _, rep_int32n _ (by omega)⟩, ih (a + z) (by omega)⟩

theorem sumQ_of_ints (x : List Int) :
    sumQ (x.map (fun (z : Int) => ofQ (z : ℚ))) = ((x.sum : Int) : ℚ) := by
  induction x with
  | nil => simp [sumQ]
  | cons z zs ih => rw [List.map_cons, sumQ_cons, ih, ofQ_val, List.sum_cons]; push_cast; rfl

/-- C9, refuted as stated: at `T = int` the quotient is converted to the element type; for
the integral sequence `[1, 2]` the result is the integer `1`, not `1.5`. -/
theorem C9_counterexample :
    ¬ ∀ x : List Int, x ≠ [] → (∀ z ∈ x, -2147483648 ≤ z ∧ z ≤ 2147483647) →
      ∃ r, meanC_int x = some r ∧ (r : ℚ) = (x.sum : ℚ) / x.length := by
  intro h
  obtain ⟨r, hr, hv⟩ := h [1, 2] (by simp) (by decide)
  have he : meanC_int [1, 2] = some 1 := by decide!
  rw [he] at hr
  cases hr
  revert hv
  norm_num

/-- C9, amended: the quotient `total / n` is formed in single precision and then converted
to the element type `T`. For a non-empty sequence of at most `2^24` integers whose absolute
values sum to at most `2^24`, `meanC<int>` returns the sum divided by `n` truncated toward
zero (an integer: `1` for `[1, 2]`), while `meanC<double>` on the same values returns the
sum divided by `n` rounded to single precision, as a floating-point value. -/
theorem C9_quotient_converted_to_T (x : List Int) (hne : x ≠ [])
    (hlen : x.length ≤ 16777216) (hsum : (x.map Int.natAbs).sum ≤ 16777216) :
    meanC_int x = some (x.sum.tdiv x.length) ∧
    meanC_double (x.map (fun (z : Int) => ofQ (z : ℚ))) =
      some (roundQ binary32 ((x.sum : ℚ) / x.length)) := by
  have h1 : 1 ≤ x.length := List.length_pos.mpr hne
  constructor
  · have hf := foldl_plusEqInt_exact x 0 (by simpa using hsum)
    rw [Int.cast_zero, ofQ_zero, zero_add] at hf
    have hS : x.sum.natAbs ≤ 16777216 := by
      have : ∀ (l : List Int), l.sum.natAbs ≤ (l.map Int.natAbs).sum := by
        intro l
        induction l with
        | nil => simp
        | cons z zs ih => rw [List.sum_cons, List.map_cons, List.sum_cons]; omega
      have := this x
      omega
    unfold meanC_int
    rw [meanCore_eq _ _ (by omega), hf, ofInt32_small h1 hlen,
      div_ofQ_num _ _ (by exact_mod_cast h1)]
    exact toInt32_roundQ_div x.sum x.length h1 hlen hS
  · have hx := exactSums_of_ints x 0 (by simpa using hsum)
    rw [Int.cast_zero] at hx
    have hm := meanC_double_exact_small _ (by rw [List.length_map]; exact h1)
      (by rw [List.length_map]; exact hlen) hx
    rw [sumQ_of_ints, List.length_map] at hm
    exact hm

/-- C9, amended, at `[1, 2]`. -/
theorem C9_quotient_converted_to_T_witness :
    meanC_int [1, 2] = some (([1, 2] : List Int).sum.tdiv ([1, 2] : List Int).length) ∧
    meanC_double (([1, 2] : List Int).map (fun (z : Int) => ofQ (z : ℚ))) =
      some (roundQ binary32 (((([1, 2] : List Int).sum : Int) : ℚ) /
        (([1, 2] : List Int).length : ℚ))) :=
  C9_quotient_converted_to_T [1, 2] (by simp) (by decide) (by decide)

/-! ## C10 -/

theorem step_saturated : plusEqDouble (.num 16777216) (.num 1) = .num 16777216 := by decide!

theorem ofInt32_pow25 : FP.ofInt binary32 33554432 = .num 33554432 := by decide!

theorem div32_saturated :
    FP.cvt binary64 (FP.div binary32 (.num 16777216) (.num 33554432)) = .num (1 / 2) := by
  decide!

/-- Once the accumulator holds `2^24`, adding `1` leaves it unchanged. -/
theorem foldl_saturated (j : Nat) :
    (List.replicate j (FP.num 1)).foldl plusEqDouble (.num 16777216) = .num 16777216 := by
  induction j with
  | zero => rfl
  | succ j ih => rw [List.replicate_succ, List.foldl_cons, step_saturated, ih]

/-- The first `2^24` ones are accumulated exactly. -/
theorem foldl_ones_exact :
    (List.replicate 16777216 (FP.num 1)).foldl plusEqDouble (.zero false) = .num 16777216 := by
  have h1 : FP.num 1 = ofQ 1 := (ofQ_ne_zero one_ne_zero).symm
  have hx := exactSums_replicate 1 16777216 0 (fun k hk => by
    have : ((k : ℚ) * 1) = (((k : Int)) : ℚ) := by push_cast; ring
    rw [this]
    exact rep_int32 k (by rw [abs_of_nonneg] <;> omega))
  rw [Nat.cast_zero, zero_mul] at hx
  have h := foldl_plusEqDouble_exact _ 0 (rep_zero _) hx
  rw [ofQ_zero, zero_add, sumQ_replicate, mul_one] at h
  rw [h1, h]
  exact ofQ_ne_zero (by norm_num)

/-- The run of `meanC<double>` on `2^25` ones: the accumulator stops at `2^24` and the
result is `0.5`. -/
theorem run_ones : meanC_double (List.replicate 33554432 (FP.num 1)) = some (.num (1 / 2)) := by
  have hl : (List.replicate 33554432 (FP.num 1)).length = 33554432 := List.length_replicate _ _
  have hsplit : List.replicate 33554432 (FP.num 1) =
      List.replicate 16777216 (FP.num 1) ++ List.replicate 16777216 (FP.num 1) := by
    rw [← List.replicate_add]
  unfold meanC_double
  rw [meanCore_eq _ _ (by rw [hl]; decide), hl]
  rw [hsplit, List.foldl_append, foldl_ones_exact, foldl_saturated]
  show some (FP.cvt binary64 (FP.div binary32 (.num 16777216) (FP.ofInt binary32 33554432))) = _
  rw [ofInt32_pow25, div32_saturated]
theorem rne_add_lt (Z : Int) (r : ℚ) (h0 : 0 ≤ r) (h1 : r < 1 / 2) :
    rne ((Z : ℚ) + r) = Z := by
  have hfl : ⌊(Z : ℚ) + r⌋ = Z := by
    rw [Int.floor_eq_iff]
    constructor <;> linarith
  unfold rne
  simp only
  rw [hfl, if_pos (by linarith)]

theorem rne_add_half_even (Z : Int) (he : Z % 2 = 0) : rne ((Z : ℚ) + 1 / 2) = Z := by
  have hfl : ⌊(Z : ℚ) + 1 / 2⌋ = Z := by
    rw [Int.floor_eq_iff]
    constructor <;> linarith
  unfold rne
  simp only
  rw [hfl, if_neg (by linarith), if_neg (by linarith), if_pos he]

theorem ilog2_lt_of_lt {q : ℚ} {m : Int} (hq : 0 < q) (h : q < (2 : ℚ) ^ m) : ilog2 q < m :=
  two_zpow_lt_iff.mp ((ilog2_spec q hq).1.trans_lt h)

theorem le_ilog2_of_le {q : ℚ} {m : Int} (h : (2 : ℚ) ^ m ≤ q) : m ≤ ilog2 q := by
  have hq : 0 < q := lt_of_lt_of_le (two_zpow_pos m) h
  have := two_zpow_lt_iff.mp (h.trans_lt (ilog2_spec q hq).2)
  omega

/-- With the accumulator at an integer `t` in `[2^18, 2^20 - 2]`, adding the double
`1.015625` adds exactly `1`: the `1/64` is lost when the sum is narrowed to `float`. -/
theorem step_lossy (t : Int) (h1 : 262144 ≤ t) (h2 : t + 2 ≤ 1048576) :
    plusEqDouble (.num (t : ℚ)) (.num (65 / 64)) = .num ((t + 1 : Int) : ℚ) := by
  have ht1 : (262144 : ℚ) ≤ (t : ℚ) := by exact_mod_cast h1
  have ht2 : (t : ℚ) + 2 ≤ 1048576 := by exact_mod_cast h2
  have ht0 : (t : ℚ) ≠ 0 := by linarith
  have hq0 : (0 : ℚ) < (t : ℚ) + 65 / 64 := by linarith
  have habs : |(t : ℚ) + 65 / 64| = (t : ℚ) + 65 / 64 := abs_of_pos hq0
  have hlo : (2 : ℚ) ^ (18 : Int) ≤ (t : ℚ) + 65 / 64 := by norm_num; linarith
  have hhi : (t : ℚ) + 65 / 64 < (2 : ℚ) ^ (20 : Int) := by norm_num; linarith
  have he1 : (18 : Int) ≤ ilog2 ((t : ℚ) + 65 / 64) := le_ilog2_of_le hlo
  have he2 : ilog2 ((t : ℚ) + 65 / 64) < 20 := ilog2_lt_of_lt hq0 hhi
  -- the sum is exact in `double`
  have hr64 : Rep binary64 ((t : ℚ) + 65 / 64) := by
    refine Rep.of_multiple (k := -6) (64 * t + 65) ?_ ?_ ?_
    · rw [habs]; push_cast; norm_num; ring
    · unfold ulpExp
      rw [habs]
      have : binary64.emin = -1022 := by decide
      rw [this, max_eq_left (by omega)]
      have hp : ((binary64.prec : Nat) : Int) = 53 := rfl
      omega
    · rw [habs]
      exact hhi.trans_le (two_zpow_mono (by decide))
  have hc : FP.cvt binary64 (.num (t : ℚ)) = .num (t : ℚ) :=
    cvt_of_inFormat ⟨ht0, rep32_rep64 (rep_int32n t (by omega))⟩
  -- narrowing to `float` drops the `1/64`
  have hu : ulpExp binary32 ((t : ℚ) + 65 / 64) = ilog2 ((t : ℚ) + 65 / 64) - 23 := by
    unfold ulpExp
    rw [habs, emin32, max_eq_left (by omega)]
    have hp : ((binary32.prec : Nat) : Int) = 24 := rfl
    omega
  have hm : rmag binary32 ((t : ℚ) + 65 / 64) = (t : ℚ) + 1 := by
    unfold rmag
    rw [hu, habs]
    have hcases : ilog2 ((t : ℚ) + 65 / 64) = 18 ∨ ilog2 ((t : ℚ) + 65 / 64) = 19 := by omega
    rcases hcases with h | h
    · rw [h]
      have hs : ((t : ℚ) + 65 / 64) / (2 : ℚ) ^ ((18 : Int) - 23) =
          ((32 * (t + 1) : Int) : ℚ) + 1 / 2 := by
        push_cast; norm_num; ring
      rw [hs, rne_add_half_even _ (by omega)]
      push_cast; norm_num; ring
    · rw [h]
      have hs : ((t : ℚ) + 65 / 64) / (2 : ℚ) ^ ((19 : Int) - 23) =
          ((16 * (t + 1) : Int) : ℚ) + 1 / 4 := by
        push_cast; norm_num; ring
      rw [hs, rne_add_lt _ _ (by norm_num) (by norm_num)]
      push_cast; norm_num; ring
  unfold plusEqDouble
  rw [hc]
  show FP.cvt binary32 (roundQ binary64 ((t : ℚ) + 65 / 64)) = _
  rw [roundQ_of_rep hr64, ofQ_ne_zero hq0.ne']
  show roundQ binary32 ((t : ℚ) + 65 / 64) = _
  rw [roundQ_pos hq0, hm, if_neg (by
    have := pow128_gt
    exact not_le.mpr (by linarith)), if_neg (by linarith)]
  push_cast
  rfl

theorem foldl_lossy : ∀ (j : Nat) (t : Int), 262144 ≤ t → t + j + 1 ≤ 1048576 →
    (List.replicate j (FP.num (65 / 64))).foldl plusEqDouble (.num (t : ℚ)) =
      .num ((t + j : Int) : ℚ) := by
  intro j
  induction j with
  | zero => intro t _ _; simp
  | succ j ih =>
    intro t h1 h2
    rw [List.replicate_succ, List.foldl_cons, step_lossy t h1 (by omega), ih (t + 1) (by omega)
      (by push_cast at h2 ⊢; omega)]
    congr 2
    push_cast
    ring

/-- The first `258112` additions of `1.015625` are exact and reach `262145`. -/
theorem foldl_prefix_exact :
    (List.replicate 258112 (FP.num (65 / 64))).foldl plusEqDouble (.zero false) =
      .num 262145 := by
  have h1 : FP.num (65 / 64) = ofQ (65 / 64) := (ofQ_ne_zero (by norm_num)).symm
  have hrep : ∀ k : Nat, k ≤ 0 + 258112 → Rep binary32 ((k : ℚ) * (65 / 64)) := by
    intro k hk
    rcases Nat.eq_zero_or_pos k with h0 | hpos
    · rw [h0]; simp [rep_zero]
    rcases Nat.lt_or_ge k 258112 with hlt | hge
    · have hkq : (1 : ℚ) ≤ (k : ℚ) := by exact_mod_cast hpos
      have hkq2 : (k : ℚ) ≤ 258111 := by exact_mod_cast Nat.lt_succ_iff.mp hlt
      have hq0 : (0 : ℚ) < (k : ℚ) * (65 / 64) := by positivity
      have habs : |(k : ℚ) * (65 / 64)| = (k : ℚ) * (65 / 64) := abs_of_pos hq0
      have hhi : (k : ℚ) * (65 / 64) < (2 : ℚ) ^ (18 : Int) := by norm_num; linarith
      have he := ilog2_lt_of_lt hq0 hhi
      refine Rep.of_multiple (k := -6) (65 * (k : Int)) ?_ ?_ ?_
      · rw [habs]; push_cast; norm_num; ring
      · unfold ulpExp
        rw [habs, emin32]
        have : max (ilog2 ((k : ℚ) * (65 / 64))) (-126) ≤ 17 := max_le (by omega) (by decide)
        have hp : ((binary32.prec : Nat) : Int) = 24 := rfl
        omega
      · rw [habs]
        exact hhi.trans_le (two_zpow_mono (by decide))
    · have hk : k = 258112 := by omega
      rw [hk]
      have : ((258112 : Nat) : ℚ) * (65 / 64) = ((262145 : Int) : ℚ) := by norm_num
      rw [this]
      exact rep_int32n _ (by decide)
  have hx := exactSums_replicate (65 / 64) 258112 0 hrep
  rw [Nat.cast_zero, zero_mul] at hx
  have h := foldl_plusEqDouble_exact _ 0 (rep_zero _) hx
  rw [ofQ_zero, zero_add, sumQ_replicate] at h
  rw [h1, h]
  rw [ofQ_ne_zero (by norm_num)]
  norm_num

theorem ofInt32_million : FP.ofInt binary32 1000000 = .num 1000000 := by decide!

theorem div32_million :
    FP.cvt binary64 (FP.div binary32 (.num 1004033) (.num 1000000)) =
      .num (8422439 / 8388608) := by decide!

/-- The run of `meanC<double>` on `10^6` elements all equal to `1.015625`: the first
`258112` additions are exact, each later one loses the `1/64`, the accumulator ends at
`1004033` instead of `1015625`, and the result is `8422439 / 2^23` (about `1.00403`). -/
theorem run_million :
    meanC_double (List.replicate 1000000 (FP.num (65 / 64))) =
      some (.num (8422439 / 8388608)) := by
  have hl : (List.replicate 1000000 (FP.num (65 / 64))).length = 1000000 :=
    List.length_replicate _ _
  have hsplit : List.replicate 1000000 (FP.num (65 / 64)) =
      List.replicate 258112 (FP.num (65 / 64)) ++ List.replicate 741888 (FP.num (65 / 64)) := by
    rw [← List.replicate_add]
  have h2 := foldl_lossy 741888 262145 (by decide) (by decide)
  have h3 : (((262145 : Int) + ((741888 : Nat) : Int) : Int) : ℚ) = 1004033 := by norm_num
  have h4 : ((262145 : Int) : ℚ) = 262145 := by norm_num
  rw [h3, h4] at h2
  unfold meanC_double
  rw [meanCore_eq _ _ (by rw [hl]; decide), hl]
  rw [hsplit, List.foldl_append, foldl_prefix_exact, h2]
  show some (FP.cvt binary64 (FP.div binary32 (.num 1004033) (FP.ofInt binary32 1000000))) = _
  rw [ofInt32_million, div32_million]

/-- C10, refuted as stated: on `10^6` elements all equal to `1.015625` the `float`
accumulator drops the `1/64` of every element once it has passed `2^18`, and `meanC` returns
`8422439 / 2^23` (about `1.00403`) while the exact mean is `1.015625`: a relative error above
`1e-2`, not `1e-6`. -/
theorem C10_counterexample :
    ¬ ∀ x : List FP, 1000000 ≤ x.length →
      (∀ v ∈ x, v.isFinite = true ∧ v.inFormat binary64) →
      (∃ c : ℚ, 0 < c ∧ ∀ v ∈ x, c ≤ |v.val| ∧ |v.val| ≤ 2 * c) →
      ∃ r, meanC_double x = some r ∧
        |r.val - sumQ x / x.length| ≤ 1 / 1000000 * |sumQ x / x.length| := by
  intro h
  have hl : (List.replicate 1000000 (FP.num (65 / 64))).length = 1000000 :=
    List.length_replicate _ _
  have h64 : (FP.num (65 / 64)).inFormat binary64 := by decide!
  have habs : |(65 / 64 : ℚ)| = 65 / 64 := abs_of_pos (by norm_num)
  obtain ⟨r, hr, hv⟩ := h (List.replicate 1000000 (FP.num (65 / 64))) (by rw [hl])
    (fun v hv => by rw [List.eq_of_mem_replicate hv]; exact ⟨rfl, h64⟩)
    ⟨65 / 64, by norm_num, fun v hv => by
      rw [List.eq_of_mem_replicate hv]
      show 65 / 64 ≤ |(65 / 64 : ℚ)| ∧ |(65 / 64 : ℚ)| ≤ 2 * (65 / 64)
      rw [habs]
      constructor <;> norm_num⟩
  rw [run_million] at hr
  cases hr
  have h1 : FP.num (65 / 64) = ofQ (65 / 64) := (ofQ_ne_zero (by norm_num)).symm
  rw [hl, h1, sumQ_replicate] at hv
  have hval : (FP.num (8422439 / 8388608)).val = 8422439 / 8388608 := rfl
  rw [hval] at hv
  have e1 : ((1000000 : Nat) : ℚ) * (65 / 64) / ((1000000 : Nat) : ℚ) = 65 / 64 := by norm_num
  rw [e1, habs] at hv
  have e2 : |(8422439 / 8388608 : ℚ) - 65 / 64| = 97241 / 8388608 := by
    rw [abs_of_neg (by norm_num)]; norm_num
  rw [e2] at hv
  norm_num at hv

/-- With exact running sums the final sum is itself a `float`. -/
theorem rep_sum_of_exactSums : ∀ (x : List FP) (a : ℚ), Rep binary32 a →
    exactSums a x = true → Rep binary32 (a + sumQ x) := by
  intro x
  induction x with
  | nil => intro a ha _; simpa [sumQ] using ha
  | cons v vs ih =>
    intro a _ hx
    unfold exactSums at hx
    simp only [Bool.and_eq_true, decide_eq_true_eq] at hx
    obtain ⟨⟨_, hs⟩, hrest⟩ := hx
    rw [sumQ_cons, ← add_assoc]
    exact ih _ hs hrest

/-- C10, amended: for a non-empty sequence of at most `2^24` elements whose running sums
are all exactly representable in single precision (for example `10^6` elements equal to
`1`) and whose mean is at least `2^-126` in magnitude, the value returned by `meanC` is
finite and differs from the exact mean by a relative error of at most `2^-24`, hence at most
`1e-6`. -/
theorem C10_relative_error (x : List FP) (hne : x ≠ []) (hlen : x.length ≤ 16777216)
    (hx : exactSums 0 x = true)
    (hnorm : (2 : ℚ) ^ (-126 : Int) ≤ |sumQ x / x.length|) :
    ∃ r, meanC_double x = some r ∧ r.isFinite = true ∧
      |r.val - sumQ x / x.length| ≤ |sumQ x / x.length| / 16777216 ∧
      |r.val - sumQ x / x.length| ≤ 1 / 1000000 * |sumQ x / x.length| := by
  have h1 : 1 ≤ x.length := List.length_pos.mpr hne
  have hS : Rep binary32 (sumQ x) := by
    have := rep_sum_of_exactSums x 0 (rep_zero _) hx
    rwa [zero_add] at this
  have hn1 : (1 : ℚ) ≤ (x.length : ℚ) := by exact_mod_cast h1
  have hle : |sumQ x / x.length| ≤ |sumQ x| := by
    rw [abs_div]
    exact div_le_self (abs_nonneg _) (hn1.trans (le_abs_self _))
  obtain ⟨hf, herr⟩ := roundQ_rel_err prec32 (q := sumQ x / x.length) hnorm hS.abs hle
  have hpw : (2 : ℚ) ^ binary32.prec = 16777216 := by norm_num [binary32]
  rw [hpw] at herr
  refine ⟨_, meanC_double_exact_small x h1 hlen hx, hf, herr, herr.trans ?_⟩
  have := abs_nonneg (sumQ x / (x.length : ℚ))
  linarith

/-- C10, amended, at `[1, 2, 4]`, whose mean `7/3` is rounded. -/
theorem C10_relative_error_witness :
    ∃ r, meanC_double [.num 1, .num 2, .num 4] = some r ∧ r.isFinite = true ∧
      |r.val - sumQ [.num 1, .num 2, .num 4] / ([FP.num 1, FP.num 2, FP.num 4].length : ℚ)| ≤
        |sumQ [.num 1, .num 2, .num 4] / ([FP.num 1, FP.num 2, FP.num 4].length : ℚ)|
          / 16777216 ∧
      |r.val - sumQ [.num 1, .num 2, .num 4] / ([FP.num 1, FP.num 2, FP.num 4].length : ℚ)| ≤
        1 / 1000000 *
          |sumQ [.num 1, .num 2, .num 4] / ([FP.num 1, FP.num 2, FP.num 4].length : ℚ)| :=
  C10_relative_error [.num 1, .num 2, .num 4] (by simp) (by decide) (by decide!) (by decide!)

/-! ## The loop as a state machine: runs -/

/-- A pass through the loop never changes the vector. -/
theorem loopStep_frame {T : Type} (plusEq : FP → T → FP) (n : Int) (s s1 : LoopState T) :
    (loopStep plusEq n s = .next s1 → s1.x = s.x) ∧
    (loopStep plusEq n s = .stop s1 → s1 = s) := by
  unfold loopStep
  split_ifs with h1 h2
  · cases hx : s.x[s.i.toNat]? with
    | none => simp
    | some v =>
      simp only [LoopStep.next.injEq, reduceCtorEq, false_implies, and_true]
      intro h; rw [← h]
  · simp
  · simp only [reduceCtorEq, false_implies, LoopStep.stop.injEq, true_and]
    intro h; exact h.symm

theorem loopStep_in_range {T : Type} (plusEq : FP → T → FP) (n : Int) (x : List T)
    (j : Nat) (total : FP) (hj : j < x.length) (hn : (j : Int) < n) :
    loopStep plusEq n ⟨x, j, total⟩ =
      .next ⟨x, ((j + 1 : Nat) : Int), plusEq total (x.get ⟨j, hj⟩)⟩ := by
  unfold loopStep
  simp only
  rw [if_pos hn, if_pos (Int.ofNat_nonneg j), Int.toNat_ofNat, List.getElem?_eq_getElem hj]
  simp

theorem loopStep_at_end {T : Type} (plusEq : FP → T → FP) (n : Int) (s : LoopState T)
    (h : n ≤ s.i) : loopStep plusEq n s = .stop s := by
  unfold loopStep
  rw [if_neg (by omega)]

theorem runLoop_at_end {T : Type} (plusEq : FP → T → FP) (n : Int) (f : Nat)
    (s : LoopState T) (h : n ≤ s.i) : runLoop plusEq n (f + 1) s = some (s, []) := by
  unfold runLoop
  rw [loopStep_at_end _ _ _ h]

theorem loop_succ {T : Type} (plusEq : FP → T → FP) (x : List T) (k j : Nat) (total : FP)
    (hj : j < x.length) :
    loop plusEq x (k + 1) j total = loop plusEq x k (j + 1) (plusEq total (x.get ⟨j, hj⟩)) := by
  rw [loop, List.getElem?_eq_getElem hj]
  rfl

/-- From index `j` with `k` iterations to go, the state machine performs exactly the `k`
reads `x[j], ..., x[j+k-1]`, exits with `i = j + k`, leaves `x` unchanged and computes the
accumulator of `loop`. -/
theorem runLoop_eq_loop {T : Type} (plusEq : FP → T → FP) (x : List T) :
    ∀ (k fuel j : Nat) (total : FP), j + k ≤ x.length → k + 1 ≤ fuel →
      runLoop plusEq ((j + k : Nat) : Int) fuel ⟨x, j, total⟩ =
        (loop plusEq x k j total).map
          (fun t => (⟨x, ((j + k : Nat) : Int), t⟩, (List.range' j k).map Int.ofNat)) := by
  intro k
  induction k with
  | zero =>
    intro fuel j total _ hf
    obtain ⟨f, rfl⟩ : ∃ f, fuel = f + 1 := ⟨fuel - 1, by omega⟩
    rw [runLoop_at_end plusEq _ f _ (by simp)]
    simp [loop]
  | succ k ih =>
    intro fuel j total hlen hf
    obtain ⟨f, rfl⟩ : ∃ f, fuel = f + 1 := ⟨fuel - 1, by omega⟩
    have hj : j < x.length := by omega
    unfold runLoop
    rw [loopStep_in_range plusEq _ x j total hj (by push_cast; omega)]
    simp only
    have hidx : j + (k + 1) = (j + 1) + k := by omega
    rw [hidx, ih f (j + 1) _ (by omega) (by omega), loop_succ plusEq x k j total hj]
    simp only [Option.map_map]
    rfl

/-- The loop of `meanC` run as a state machine, for every vector: with `n = (int) x.size()`
and enough fuel it exits, leaves `x` unchanged and yields the accumulator of `loop`. -/
theorem runLoop_meanC {T : Type} (plusEq : FP → T → FP) (x : List T) (fuel : Nat)
    (hf : (sizeToInt x.length).toNat + 1 ≤ fuel) :
    ∃ s tr, runLoop plusEq (sizeToInt x.length) fuel ⟨x, 0, .zero false⟩ = some (s, tr) ∧
      s.x = x ∧
      loop plusEq x (sizeToInt x.length).toNat 0 (.zero false) = some s.total := by
  have hle := sizeToInt_le x.length
  rcases lt_or_le (sizeToInt x.length) 0 with hneg | hnn
  · obtain ⟨f, rfl⟩ : ∃ f, fuel = f + 1 := ⟨fuel - 1, by omega⟩
    refine ⟨⟨x, 0, .zero false⟩, [], ?_, rfl, ?_⟩
    · exact runLoop_at_end plusEq _ f _ hneg.le
    · have : (sizeToInt x.length).toNat = 0 := by omega
      rw [this]; rfl
  · have hk : 0 + (sizeToInt x.length).toNat ≤ x.length := by omega
    have h := runLoop_eq_loop plusEq x (sizeToInt x.length).toNat fuel 0 (.zero false) hk hf
    have hn : ((0 + (sizeToInt x.length).toNat : Nat) : Int) = sizeToInt x.length := by
      rw [Nat.zero_add]; exact Int.toNat_of_nonneg hnn
    rw [hn] at h
    rw [loop_eq_foldl plusEq x _ 0 _ hk] at h ⊢
    exact ⟨_, _, h, rfl, rfl⟩

/-! ## C11 -/

/-- C11: `meanC` is pure. The state the loop works on is the vector `x` (the by-value
parameter, a copy of the caller's sequence), the counter and the accumulator; no pass
through the loop writes `x`, so at loop exit the vector is the one passed in, and the value
returned is computed from that state alone. Two calls on equal input sequences therefore
return the same result, from `meanC` and from `mean_wrap`. -/
theorem C11_pure (x y : List FP) (h : x = y) :
    (∃ s tr, runLoop plusEqDouble (sizeToInt x.length) ((sizeToInt x.length).toNat + 1)
        ⟨x, 0, .zero false⟩ = some (s, tr) ∧ s.x = x ∧
      meanC_double x = some (FP.cvt binary64
        (FP.div binary32 s.total (FP.ofInt binary32 (sizeToInt x.length))))) ∧
    (∀ (n : Int) (s s1 : LoopState FP), loopStep plusEqDouble n s = .next s1 → s1.x = s.x) ∧
    meanC_double x = meanC_double y ∧ mean_wrap x = mean_wrap y := by
  subst h
  refine ⟨?_, fun n s s1 => (loopStep_frame plusEqDouble n s s1).1, rfl, rfl⟩
  obtain ⟨s, tr, hrun, hx, hloop⟩ := runLoop_meanC plusEqDouble x _ (le_refl _)
  refine ⟨s, tr, hrun, hx, ?_⟩
  unfold meanC_double meanCore
  simp only
  rw [hloop]
  rfl

/-- C11 at `[42, 34]`. -/
theorem C11_pure_witness :
    (∃ s tr, runLoop plusEqDouble (sizeToInt [FP.num 42, FP.num 34].length)
        ((sizeToInt [FP.num 42, FP.num 34].length).toNat + 1)
        ⟨[FP.num 42, FP.num 34], 0, .zero false⟩ = some (s, tr) ∧
      s.x = [FP.num 42, FP.num 34] ∧
      meanC_double [FP.num 42, FP.num 34] = some (FP.cvt binary64
        (FP.div binary32 s.total
          (FP.ofInt binary32 (sizeToInt [FP.num 42, FP.num 34].length))))) ∧
    (∀ (n : Int) (s s1 : LoopState FP), loopStep plusEqDouble n s = .next s1 → s1.x = s.x) ∧
    meanC_double [FP.num 42, FP.num 34] = meanC_double [FP.num 42, FP.num 34] ∧
    mean_wrap [FP.num 42, FP.num 34] = mean_wrap [FP.num 42, FP.num 34] :=
  C11_pure [FP.num 42, FP.num 34] [FP.num 42, FP.num 34] rfl

/-! ## C13 -/

theorem mem_range_cast (n : Nat) (i : Int) :
    i ∈ (List.range n).map Int.ofNat ↔ 0 ≤ i ∧ i < (n : Int) := by
  rw [List.mem_map]
  constructor
  · rintro ⟨j, hj, rfl⟩
    have := List.mem_range.mp hj
    exact ⟨Int.ofNat_nonneg j, Int.ofNat_lt.mpr this⟩
  · rintro ⟨h0, h1⟩
    refine ⟨i.toNat, List.mem_range.mpr (by omega), ?_⟩
    exact Int.toNat_of_nonneg h0

theorem pairwise_range_cast (n : Nat) :
    ((List.range n).map Int.ofNat).Pairwise (fun a b => a < b) := by
  rw [List.pairwise_map]
  exact (List.pairwise_lt_range n).imp (fun h => Int.ofNat_lt.mpr h)

/-- C13: for a vector whose length `n` is below `2^31`, the loop of `meanC`, run with any
fuel above `n`, exits after exactly `n` executions of the body, at indices `0, 1, ..., n-1`
in this order (each index of the vector once, in increasing order), with `i = n` and every
read `x[i]` inside the vector; for the empty vector the body never runs. -/
theorem C13_loop_visits_each_index {T : Type} (plusEq : FP → T → FP) (x : List T)
    (fuel : Nat) (hlen : x.length < 2147483648) (hfuel : x.length + 1 ≤ fuel) :
    ∃ total, runLoop plusEq (sizeToInt x.length) fuel ⟨x, 0, .zero false⟩ =
        some (⟨x, (x.length : Int), total⟩, (List.range x.length).map Int.ofNat) ∧
      loop plusEq x x.length 0 (.zero false) = some total ∧
      ((List.range x.length).map Int.ofNat).length = x.length ∧
      (∀ i : Int, i ∈ (List.range x.length).map Int.ofNat ↔ 0 ≤ i ∧ i < (x.length : Int)) ∧
      ((List.range x.length).map Int.ofNat).Pairwise (fun a b => a < b) ∧
      (x = [] → (List.range x.length).map Int.ofNat = []) := by
  have h := runLoop_eq_loop plusEq x x.length fuel 0 (.zero false) (by omega) hfuel
  rw [Nat.zero_add, loop_eq_foldl plusEq x _ 0 _ (by omega), ← List.range_eq_range'] at h
  refine ⟨_, ?_, loop_eq_foldl plusEq x _ 0 _ (by omega), by simp, mem_range_cast _,
    pairwise_range_cast _, fun hx => by rw [hx]; rfl⟩
  rw [sizeToInt_of_lt hlen]
  exact h

/-- C13 at `[42, 34]` with fuel `3`. -/
theorem C13_loop_visits_each_index_witness :
    ∃ total, runLoop plusEqDouble (sizeToInt [FP.num 42, FP.num 34].length) 3
        ⟨[FP.num 42, FP.num 34], 0, .zero false⟩ =
        some (⟨[FP.num 42, FP.num 34], ([FP.num 42, FP.num 34].length : Int), total⟩,
          (List.range [FP.num 42, FP.num 34].length).map Int.ofNat) ∧
      loop plusEqDouble [FP.num 42, FP.num 34] [FP.num 42, FP.num 34].length 0 (.zero false)
        = some total ∧
      ((List.range [FP.num 42, FP.num 34].length).map Int.ofNat).length =
        [FP.num 42, FP.num 34].length ∧
      (∀ i : Int, i ∈ (List.range [FP.num 42, FP.num 34].length).map Int.ofNat ↔
        0 ≤ i ∧ i < ([FP.num 42, FP.num 34].length : Int)) ∧
      ((List.range [FP.num 42, FP.num 34].length).map Int.ofNat).Pairwise (fun a b => a < b) ∧
      ([FP.num 42, FP.num 34] = [] →
        (List.range [FP.num 42, FP.num 34].length).map Int.ofNat = []) :=
  C13_loop_visits_each_index plusEqDouble [FP.num 42, FP.num 34] 3 (by decide) (by decide)

/-! ## C14 -/

/-- C14: the narrowing of `meanC`'s `double` return value into the `float` variable of
`mean_wrap` loses nothing. For every input vector, the value returned by `meanC<double>` is
the single-precision quotient `total / n` widened to `double`: it is a `float` value,
converting it to `float` returns it unchanged, and `mean_wrap` returns exactly what `meanC`
returns. -/
theorem C14_narrowing_is_exact (x : List FP) :
    ∃ total, loop plusEqDouble x (sizeToInt x.length).toNat 0 (.zero false) = some total ∧
      meanC_double x =
        some (FP.div binary32 total (FP.ofInt binary32 (sizeToInt x.length))) ∧
      (FP.div binary32 total (FP.ofInt binary32 (sizeToInt x.length))).inFormat binary32 ∧
      FP.cvt binary32 (FP.div binary32 total (FP.ofInt binary32 (sizeToInt x.length))) =
        FP.div binary32 total (FP.ofInt binary32 (sizeToInt x.length)) ∧
      mean_wrap x = meanC_double x := by
  obtain ⟨s, tr, _, _, hloop⟩ := runLoop_meanC plusEqDouble x _ (le_refl _)
  have hin := div_inFormat prec32 s.total (FP.ofInt binary32 (sizeToInt x.length))
  have h64 := cvt_of_inFormat (inFormat_widen hin)
  have h32 := cvt_of_inFormat hin
  have hm : meanC_double x =
      some (FP.div binary32 s.total (FP.ofInt binary32 (sizeToInt x.length))) := by
    unfold meanC_double meanCore
    simp only
    rw [hloop]
    show some (FP.cvt binary64 _) = _
    rw [h64]
  refine ⟨s.total, hloop, hm, hin, h32, ?_⟩
  unfold mean_wrap
  rw [hm]
  show some (FP.cvt binary64 (FP.cvt binary32 _)) = _
  rw [h32, h64]

/-! ## C12 -/

/-- The accumulator after `k + 1` steps is `+=` applied to the accumulator after `k` steps
and the element `x[k]`. -/
theorem loop_snoc {T : Type} (plusEq : FP → T → FP) (x : List T) (k : Nat) (t0 : FP)
    (hk : k < x.length) :
    ∃ t, loop plusEq x k 0 t0 = some t ∧
      loop plusEq x (k + 1) 0 t0 = some (plusEq t (x.get ⟨k, hk⟩)) := by
  refine ⟨(x.take k).foldl plusEq t0, ?_, ?_⟩
  · rw [loop_eq_foldl plusEq x k 0 t0 (by omega)]; rfl
  · rw [loop_eq_foldl plusEq x (k + 1) 0 t0 (by omega), List.drop_zero, List.take_succ,
      List.foldl_append, List.getElem?_eq_getElem hk]
    rfl

theorem add_inFormat {f : Format} (hp : 1 ≤ f.prec) (a b : FP) :
    (FP.add f a b).inFormat f := by
  cases a with
  | nan => cases b <;> trivial
  | inf c =>
    cases b with
    | nan => trivial
    | inf d =>
      show (if c = d then FP.inf c else FP.nan).inFormat f
      split_ifs <;> trivial
    | zero d => trivial
    | num q => trivial
  | zero c =>
    cases b with
    | nan => trivial
    | inf d => trivial
    | zero d => trivial
    | num q => exact roundQ_inFormat hp _
  | num p =>
    cases b with
    | nan => trivial
    | inf d => trivial
    | zero d => exact roundQ_inFormat hp _
    | num q => exact roundQ_inFormat hp _

/-- The accumulator after any number of steps is a `float`, whatever `+=` is, provided
`+=` always produces a `float`. -/
theorem loop_inFormat {T : Type} (plusEq : FP → T → FP)
    (hpe : ∀ t v, (plusEq t v).inFormat binary32) (x : List T) :
    ∀ (k j : Nat) (t0 t : FP), t0.inFormat binary32 → loop plusEq x k j t0 = some t →
      t.inFormat binary32 := by
  intro k
  induction k with
  | zero =>
    intro j t0 t h0 h
    have : t0 = t := by simpa [loop] using h
    rw [← this]; exact h0
  | succ k ih =>
    intro j t0 t _ h
    rw [loop] at h
    cases hx : x[j]? with
    | none => rw [hx] at h; cases h
    | some v =>
      rw [hx] at h
      exact ih (j + 1) _ t (hpe t0 v) h

theorem plusEqDouble_inFormat (t v : FP) : (plusEqDouble t v).inFormat binary32 :=
  cvt_inFormat prec32 _

theorem plusEqFloat_inFormat (t v : FP) : (plusEqFloat t v).inFormat binary32 :=
  add_inFormat prec32 _ _

theorem plusEqInt_inFormat (t : FP) (z : Int) : (plusEqInt t z).inFormat binary32 :=
  add_inFormat prec32 _ _

/-- At `T = float` the step stores the single rounding of the exact sum. -/
theorem plusEqFloat_rounds {t v : FP} (ht : t.isFinite = true) (hv : v.isFinite = true)
    (hs : t.val + v.val ≠ 0) : plusEqFloat t v = roundQ binary32 (t.val + v.val) := by
  unfold plusEqFloat
  cases t with
  | nan => cases ht
  | inf a => cases ht
  | zero a =>
    cases v with
    | nan => cases hv
    | inf b => cases hv
    | zero b => exact absurd (by simp [FP.val]) hs
    | num q => simp [FP.add, FP.val]
  | num p =>
    cases v with
    | nan => cases hv
    | inf b => cases hv
    | zero b => simp [FP.add, FP.val]
    | num q => simp [FP.add, FP.val]

/-- At `T = double` the step stores the `float` rounding of the `double` rounding of the
exact sum; when the exact sum is itself a `double` this is the single rounding of the exact
sum. -/
theorem plusEqDouble_rounds {t v : FP} (ht : t.isFinite = true) (htf : t.inFormat binary32)
    (hv : v.isFinite = true) (hs : t.val + v.val ≠ 0) :
    plusEqDouble t v = FP.cvt binary32 (roundQ binary64 (t.val + v.val)) ∧
    (Rep binary64 (t.val + v.val) →
      plusEqDouble t v = roundQ binary32 (t.val + v.val)) := by
  have hc : FP.cvt binary64 t = t := cvt_of_inFormat (inFormat_widen htf)
  have h1 : plusEqDouble t v = FP.cvt binary32 (roundQ binary64 (t.val + v.val)) := by
    unfold plusEqDouble
    rw [hc]
    cases t with
    | nan => cases ht
    | inf a => cases ht
    | zero a =>
      cases v with
      | nan => cases hv
      | inf b => cases hv
      | zero b => exact absurd (by simp [FP.val]) hs
      | num q => simp [FP.add, FP.val]
    | num p =>
      cases v with
      | nan => cases hv
      | inf b => cases hv
      | zero b => simp [FP.add, FP.val]
      | num q => simp [FP.add, FP.val]
  refine ⟨h1, fun hr => ?_⟩
  rw [h1, roundQ_of_rep hr, ofQ_ne_zero hs]
  rfl

/-- At `T = int` the element is rounded to `float` and the step stores the single rounding
of the sum of the accumulator and that `float`; for `|x[i]| ≤ 2^24` the element is kept
exactly. -/
theorem plusEqInt_rounds {t : FP} {z : Int} (ht : t.isFinite = true)
    (hz : z.natAbs ≤ 16777216) (hs : t.val + (z : ℚ) ≠ 0) :
    plusEqInt t z = roundQ binary32 (t.val + (z : ℚ)) := by
  unfold plusEqInt FP.ofInt
  rw [roundQ_of_rep (rep_int32n z hz)]
  have h := plusEqFloat_rounds (t := t) (v := ofQ (z : ℚ)) ht (ofQ_isFinite _)
    (by rw [ofQ_val]; exact hs)
  rw [ofQ_val] at h
  exact h

/-- The narrowing of the `double` sum need not be the single rounding of the exact real
sum: with the accumulator at `1` and the double `2^-24 + 2^-76`, the `double` sum is
`1 + 2^-24`, which narrows to `1`, while the exact sum lies above that midpoint and would
round to `1 + 2^-23`. -/
theorem plusEqDouble_rounds_twice :
    (FP.num ((2 : ℚ) ^ (-24 : Int) + (2 : ℚ) ^ (-76 : Int))).inFormat binary64 ∧
    plusEqDouble (.num 1) (.num ((2 : ℚ) ^ (-24 : Int) + (2 : ℚ) ^ (-76 : Int))) = .num 1 ∧
    roundQ binary32 (1 + ((2 : ℚ) ^ (-24 : Int) + (2 : ℚ) ^ (-76 : Int))) =
      .num (8388609 / 8388608) := by decide!

theorem narrower_example :
    Rep binary64 16777217 ∧ ¬ Rep binary32 16777217 ∧
    plusEqDouble (.zero false) (.num 16777217) = .num 16777216 := by decide!

theorem loop_snoc_of_get {T : Type} (plusEq : FP → T → FP) (x : List T) (k : Nat) (t0 : FP)
    (v : T) (hv : x[k]? = some v) :
    ∃ t, loop plusEq x k 0 t0 = some t ∧ loop plusEq x (k + 1) 0 t0 = some (plusEq t v) := by
  have hk : k < x.length := by
    by_contra hcon
    rw [List.getElem?_eq_none (not_lt.mp hcon)] at hv
    cases hv
  obtain ⟨t, h1, h2⟩ := loop_snoc plusEq x k t0 hk
  refine ⟨t, h1, ?_⟩
  rw [h2]
  have : x.get ⟨k, hk⟩ = v := by
    rw [List.getElem?_eq_getElem hk] at hv
    exact Option.some.inj hv
  rw [this]

/-- The quotient `total / n` is formed in single precision, whatever the element type. -/
theorem quotient_inFormat {T : Type} (plusEq : FP → T → FP) (x : List T) :
    ∃ total, loop plusEq x (sizeToInt x.length).toNat 0 (.zero false) = some total ∧
      meanCore plusEq x =
        some (FP.div binary32 total (FP.ofInt binary32 (sizeToInt x.length))) ∧
      (FP.div binary32 total (FP.ofInt binary32 (sizeToInt x.length))).inFormat binary32 := by
  obtain ⟨s, tr, _, _, hloop⟩ := runLoop_meanC plusEq x _ (le_refl _)
  refine ⟨s.total, hloop, ?_, div_inFormat prec32 _ _⟩
  unfold meanCore
  simp only
  rw [hloop]
  rfl

/-- The steps of `meanC<double>` on `[42, 34]`: the accumulator is `42` after the first step
and `76`, the single rounding of the exact sum `42 + 34`, after the second; the quotient is
the `float` `38`. -/
theorem run_steps_42_34 :
    loop plusEqDouble [.num 42, .num 34] 1 0 (.zero false) = some (.num 42) ∧
    loop plusEqDouble [.num 42, .num 34] 2 0 (.zero false) = some (.num 76) ∧
    Rep binary64 (42 + 34) ∧ roundQ binary32 (42 + 34) = .num 76 ∧
    meanCore plusEqDouble [.num 42, .num 34] = some (.num 38) := by decide!

/-- Every `int` converts to a finite `float`. -/
theorem ofInt32_isFinite (w : Int) (h : w.natAbs ≤ 2147483648) :
    (FP.ofInt binary32 w).isFinite = true := by
  have h1 : (-2147483648 : ℚ) ≤ (w : ℚ) := by
    have : (-2147483648 : Int) ≤ w := by omega
    exact_mod_cast this
  have h2 : (w : ℚ) ≤ 2147483648 := by
    have : w ≤ (2147483648 : Int) := by omega
    exact_mod_cast this
  exact (roundQ_between prec32 rep32_pow31.neg rep32_pow31 h1 h2).1

/-- At `T = int` the step stores the single rounding of the sum of the accumulator and the
`float` image of the element. -/
theorem plusEqInt_rounds_image {t : FP} {w : Int} (ht : t.isFinite = true)
    (hw : w.natAbs ≤ 2147483648)
    (hs : t.val + (FP.ofInt binary32 w).val ≠ 0) :
    plusEqInt t w = roundQ binary32 (t.val + (FP.ofInt binary32 w).val) :=
  plusEqFloat_rounds ht (ofInt32_isFinite w hw) hs

/-- The body of `meanC` divides, in `float`, the accumulator left by the loop started at `+0`
by the `float` image of `n`; the accumulator is the fold of `+=` from `+0` over the elements
read, and both it and the quotient are `float` values. -/
theorem meanCore_pinned {T : Type} (plusEq : FP → T → FP)
    (hpe : ∀ t v, (plusEq t v).inFormat binary32) (x : List T) :
    ∃ total, loop plusEq x (sizeToInt x.length).toNat 0 (.zero false) = some total ∧
      total = (x.take (sizeToInt x.length).toNat).foldl plusEq (.zero false) ∧
      total.inFormat binary32 ∧
      meanCore plusEq x =
        some (FP.div binary32 total (FP.ofInt binary32 (sizeToInt x.length))) ∧
      (FP.div binary32 total (FP.ofInt binary32 (sizeToInt x.length))).inFormat binary32 := by
  have hle := sizeToInt_le x.length
  have hk : 0 + (sizeToInt x.length).toNat ≤ x.length := by omega
  have hloop := loop_eq_foldl plusEq x (sizeToInt x.length).toNat 0 (.zero false) hk
  rw [List.drop_zero] at hloop
  refine ⟨_, hloop, rfl, loop_inFormat plusEq hpe x _ 0 (.zero false) _ trivial hloop, ?_,
    div_inFormat prec32 _ _⟩
  unfold meanCore
  simp only
  rw [hloop]
  rfl

theorem run_double_rounding :
    loop plusEqDouble [.num 1, .num ((2 : ℚ) ^ (-24 : Int) + (2 : ℚ) ^ (-76 : Int))] 1 0
      (.zero false) = some (.num 1) ∧
    loop plusEqDouble [.num 1, .num ((2 : ℚ) ^ (-24 : Int) + (2 : ℚ) ^ (-76 : Int))] 2 0
      (.zero false) = some (.num 1) ∧
    roundQ binary32 ((FP.num 1).val +
      (FP.num ((2 : ℚ) ^ (-24 : Int) + (2 : ℚ) ^ (-76 : Int))).val) =
        .num (8388609 / 8388608) := by decide!

theorem run_int_rounding :
    loop plusEqInt [1, 16777217] 1 0 (.zero false) = some (.num 1) ∧
    loop plusEqInt [1, 16777217] 2 0 (.zero false) = some (.num 16777216) ∧
    roundQ binary32 ((FP.num 1).val + ((16777217 : Int) : ℚ)) = .num 16777218 := by decide!

/-- The steps of `meanC<float>` on `[42, 34]` and of `meanC<int>` on `[1, 2]`: finite
accumulators, nonzero sums, each step the single rounding of the exact sum. -/
theorem run_steps_float_int :
    loop plusEqFloat [.num 42, .num 34] 1 0 (.zero false) = some (.num 42) ∧
    loop plusEqFloat [.num 42, .num 34] 2 0 (.zero false) = some (roundQ binary32 (42 + 34)) ∧
    loop plusEqInt [1, 2] 1 0 (.zero false) = some (.num 1) ∧
    loop plusEqInt [1, 2] 2 0 (.zero false) = some (roundQ binary32 (1 + 2)) ∧
    meanC_float [.num 42, .num 34] = some (.num 38) ∧ meanC_int [1, 2] = some 1 := by decide!

/-- C12, refuted as stated: the accumulator after a step is not always the single-precision
rounding of (previous accumulator + `x[i]`). At `T = double`, with the accumulator at `1`
and `x[1] = 2^-24 + 2^-76`, the sum is first rounded to `double` (`1 + 2^-24`) and then
narrowed, giving `1`, while the sum itself rounds to `1 + 2^-23`. At `T = int`, with the
accumulator at `1` and `x[1] = 2^24 + 1`, the element is first rounded to `float` (`2^24`),
giving `2^24`, while the sum `2^24 + 2` is itself a `float`. -/
theorem C12_counterexample :
    (¬ ∀ (x : List FP) (k : Nat) (v : FP),
      (∀ u ∈ x, u.isFinite = true ∧ u.inFormat binary64) → x[k]? = some v →
      ∃ t t1, loop plusEqDouble x k 0 (.zero false) = some t ∧
        loop plusEqDouble x (k + 1) 0 (.zero false) = some t1 ∧
        t1 = roundQ binary32 (t.val + v.val)) ∧
    (¬ ∀ (z : List Int) (k : Nat) (w : Int),
      (∀ u ∈ z, -2147483648 ≤ u ∧ u ≤ 2147483647) → z[k]? = some w →
      ∃ t t1, loop plusEqInt z k 0 (.zero false) = some t ∧
        loop plusEqInt z (k + 1) 0 (.zero false) = some t1 ∧
        t1 = roundQ binary32 (t.val + (w : ℚ))) := by
  constructor
  · intro h
    obtain ⟨t, t1, h1, h2, h3⟩ :=
      h [.num 1, .num ((2 : ℚ) ^ (-24 : Int) + (2 : ℚ) ^ (-76 : Int))] 1
        (.num ((2 : ℚ) ^ (-24 : Int) + (2 : ℚ) ^ (-76 : Int))) (by decide!) rfl
    rw [run_double_rounding.1] at h1
    rw [run_double_rounding.2.1] at h2
    cases h1
    cases h2
    rw [run_double_rounding.2.2] at h3
    revert h3
    decide!
  · intro h
    obtain ⟨t, t1, h1, h2, h3⟩ := h [1, 16777217] 1 16777217 (by decide) rfl
    rw [run_int_rounding.1] at h1
    rw [run_int_rounding.2.1] at h2
    cases h1
    cases h2
    rw [run_int_rounding.2.2] at h3
    revert h3
    decide!

/-- C12, amended: whatever the element type `T` (`double`, `float`, `int`), `meanC` keeps its
running sum in a single-precision accumulator that starts at `0` and is a `float` after
every step. After step `k` it holds the sum of the previous accumulator and `x[k]` as C++
forms it, rounded to single precision: for finite operands with a nonzero sum, at
`T = double` the double-precision rounding of (previous + `x[k]`) narrowed to single
precision, which is the single-precision rounding of (previous + `x[k]`) whenever that sum
is a `double`; at `T = float` the single-precision rounding of (previous + `x[k]`); at
`T = int` the single-precision rounding of (previous + the `float` image of `x[k]`), which
is the single-precision rounding of (previous + `x[k]`) whenever `|x[k]| ≤ 2^24`. The value
of `meanC` is the single-precision quotient of the accumulator left by the loop by the
`float` image of `n`, converted to `T` afterwards. At `T = double` the accumulator is
narrower than the elements: every `float` is a `double`, but the double `2^24 + 1` is not a
`float` and is stored as `2^24`. -/
theorem C12_float_accumulator (x : List FP) (z : List Int) (k : Nat) (v : FP) (w : Int)
    (hv : x[k]? = some v) (hw : z[k]? = some w) :
    (∃ t, loop plusEqDouble x k 0 (.zero false) = some t ∧ t.inFormat binary32 ∧
      loop plusEqDouble x (k + 1) 0 (.zero false) =
        some (FP.cvt binary32 (FP.add binary64 (FP.cvt binary64 t) v)) ∧
      (FP.cvt binary32 (FP.add binary64 (FP.cvt binary64 t) v)).inFormat binary32 ∧
      (t.isFinite = true → v.isFinite = true → t.val + v.val ≠ 0 →
        loop plusEqDouble x (k + 1) 0 (.zero false) =
          some (FP.cvt binary32 (roundQ binary64 (t.val + v.val))) ∧
        (Rep binary64 (t.val + v.val) →
          loop plusEqDouble x (k + 1) 0 (.zero false) =
            some (roundQ binary32 (t.val + v.val))))) ∧
    (∃ t, loop plusEqFloat x k 0 (.zero false) = some t ∧ t.inFormat binary32 ∧
      loop plusEqFloat x (k + 1) 0 (.zero false) = some (FP.add binary32 t v) ∧
      (FP.add binary32 t v).inFormat binary32 ∧
      (t.isFinite = true → v.isFinite = true → t.val + v.val ≠ 0 →
        loop plusEqFloat x (k + 1) 0 (.zero false) =
          some (roundQ binary32 (t.val + v.val)))) ∧
    (∃ t, loop plusEqInt z k 0 (.zero false) = some t ∧ t.inFormat binary32 ∧
      loop plusEqInt z (k + 1) 0 (.zero false) =
        some (FP.add binary32 t (FP.ofInt binary32 w)) ∧
      (FP.add binary32 t (FP.ofInt binary32 w)).inFormat binary32 ∧
      (t.isFinite = true → w.natAbs ≤ 2147483648 →
        t.val + (FP.ofInt binary32 w).val ≠ 0 →
        loop plusEqInt z (k + 1) 0 (.zero false) =
          some (roundQ binary32 (t.val + (FP.ofInt binary32 w).val))) ∧
      (t.isFinite = true → w.natAbs ≤ 16777216 → t.val + (w : ℚ) ≠ 0 →
        loop plusEqInt z (k + 1) 0 (.zero false) =
          some (roundQ binary32 (t.val + (w : ℚ))))) ∧
    (∃ total, loop plusEqDouble x (sizeToInt x.length).toNat 0 (.zero false) = some total ∧
      total = (x.take (sizeToInt x.length).toNat).foldl plusEqDouble (.zero false) ∧
      total.inFormat binary32 ∧
      meanCore plusEqDouble x =
        some (FP.div binary32 total (FP.ofInt binary32 (sizeToInt x.length))) ∧
      (FP.div binary32 total (FP.ofInt binary32 (sizeToInt x.length))).inFormat binary32 ∧
      meanC_double x = some (FP.cvt binary64
        (FP.div binary32 total (FP.ofInt binary32 (sizeToInt x.length))))) ∧
    (∃ total, loop plusEqFloat x (sizeToInt x.length).toNat 0 (.zero false) = some total ∧
      total = (x.take (sizeToInt x.length).toNat).foldl plusEqFloat (.zero false) ∧
      total.inFormat binary32 ∧
      meanCore plusEqFloat x =
        some (FP.div binary32 total (FP.ofInt binary32 (sizeToInt x.length))) ∧
      (FP.div binary32 total (FP.ofInt binary32 (sizeToInt x.length))).inFormat binary32 ∧
      meanC_float x =
        some (FP.div binary32 total (FP.ofInt binary32 (sizeToInt x.length)))) ∧
    (∃ total, loop plusEqInt z (sizeToInt z.length).toNat 0 (.zero false) = some total ∧
      total = (z.take (sizeToInt z.length).toNat).foldl plusEqInt (.zero false) ∧
      total.inFormat binary32 ∧
      meanCore plusEqInt z =
        some (FP.div binary32 total (FP.ofInt binary32 (sizeToInt z.length))) ∧
      (FP.div binary32 total (FP.ofInt binary32 (sizeToInt z.length))).inFormat binary32 ∧
      meanC_int z =
        FP.toInt32 (FP.div binary32 total (FP.ofInt binary32 (sizeToInt z.length)))) ∧
    ((∀ q : ℚ, Rep binary32 q → Rep binary64 q) ∧ Rep binary64 16777217 ∧
      ¬ Rep binary32 16777217 ∧
      plusEqDouble (.zero false) (.num 16777217) = .num 16777216) := by
  refine ⟨?_, ?_, ?_, ?_, ?_, ?_, ?_⟩
  · obtain ⟨t, h1, h2⟩ := loop_snoc_of_get plusEqDouble x k (.zero false) v hv
    have htf := loop_inFormat plusEqDouble plusEqDouble_inFormat x k 0 (.zero false) t
      trivial h1
    refine ⟨t, h1, htf, h2, plusEqDouble_inFormat t v, fun ht hvf hs => ?_⟩
    obtain ⟨r1, r2⟩ := plusEqDouble_rounds ht htf hvf hs
    refine ⟨?_, fun hr => ?_⟩
    · rw [h2]; exact congrArg some r1
    · rw [h2]; exact congrArg some (r2 hr)
  · obtain ⟨t, h1, h2⟩ := loop_snoc_of_get plusEqFloat x k (.zero false) v hv
    have htf := loop_inFormat plusEqFloat plusEqFloat_inFormat x k 0 (.zero false) t
      trivial h1
    refine ⟨t, h1, htf, h2, plusEqFloat_inFormat t v, fun ht hvf hs => ?_⟩
    rw [h2]
    exact congrArg some (plusEqFloat_rounds ht hvf hs)
  · obtain ⟨t, h1, h2⟩ := loop_snoc_of_get plusEqInt z k (.zero false) w hw
    have htf := loop_inFormat plusEqInt plusEqInt_inFormat z k 0 (.zero false) t trivial h1
    refine ⟨t, h1, htf, h2, plusEqInt_inFormat t w, fun ht hwb hs => ?_,
      fun ht hwb hs => ?_⟩
    · rw [h2]
      exact congrArg some (plusEqInt_rounds_image ht hwb hs)
    · rw [h2]
      exact congrArg some (plusEqInt_rounds ht hwb hs)
  · obtain ⟨total, hl, hf, hin, hq, hqin⟩ :=
      meanCore_pinned plusEqDouble plusEqDouble_inFormat x
    refine ⟨total, hl, hf, hin, hq, hqin, ?_⟩
    unfold meanC_double
    rw [hq]
    rfl
  · obtain ⟨total, hl, hf, hin, hq, hqin⟩ :=
      meanCore_pinned plusEqFloat plusEqFloat_inFormat x
    exact ⟨total, hl, hf, hin, hq, hqin, hq⟩
  · obtain ⟨total, hl, hf, hin, hq, hqin⟩ :=
      meanCore_pinned plusEqInt plusEqInt_inFormat z
    refine ⟨total, hl, hf, hin, hq, hqin, ?_⟩
    unfold meanC_int
    rw [hq]
    rfl
  · exact ⟨fun q hq => rep32_rep64 hq, narrower_example⟩

/-- C12, amended, at the vectors `[42, 34]` (doubles, floats) and `[1, 2]` (ints), step `1`. -/
theorem C12_float_accumulator_witness :
    (∃ t, loop plusEqDouble [FP.num 42, FP.num 34] 1 0 (.zero false) = some t ∧ t.inFormat binary32 ∧
      loop plusEqDouble [FP.num 42, FP.num 34] (1 + 1) 0 (.zero false) =
        some (FP.cvt binary32 (FP.add binary64 (FP.cvt binary64 t) (FP.num 34))) ∧
      (FP.cvt binary32 (FP.add binary64 (FP.cvt binary64 t) (FP.num 34))).inFormat binary32 ∧
      (t.isFinite = true → (FP.num 34).isFinite = true → t.val + (FP.num 34).val ≠ 0 →
        loop plusEqDouble [FP.num 42, FP.num 34] (1 + 1) 0 (.zero false) =
          some (FP.cvt binary32 (roundQ binary64 (t.val + (FP.num 34).val))) ∧
        (Rep binary64 (t.val + (FP.num 34).val) →
          loop plusEqDouble [FP.num 42, FP.num 34] (1 + 1) 0 (.zero false) =
            some (roundQ binary32 (t.val + (FP.num 34).val))))) ∧
    (∃ t, loop plusEqFloat [FP.num 42, FP.num 34] 1 0 (.zero false) = some t ∧ t.inFormat binary32 ∧
      loop plusEqFloat [FP.num 42, FP.num 34] (1 + 1) 0 (.zero false) = some (FP.add binary32 t (FP.num 34)) ∧
      (FP.add binary32 t (FP.num 34)).inFormat binary32 ∧
      (t.isFinite = true → (FP.num 34).isFinite = true → t.val + (FP.num 34).val ≠ 0 →
        loop plusEqFloat [FP.num 42, FP.num 34] (1 + 1) 0 (.zero false) =
          some (roundQ binary32 (t.val + (FP.num 34).val)))) ∧
    (∃ t, loop plusEqInt ([1, 2] : List Int) 1 0 (.zero false) = some t ∧ t.inFormat binary32 ∧
      loop plusEqInt ([1, 2] : List Int) (1 + 1) 0 (.zero false) =
        some (FP.add binary32 t (FP.ofInt binary32 (2 : Int))) ∧
      (FP.add binary32 t (FP.ofInt binary32 (2 : Int))).inFormat binary32 ∧
      (t.isFinite = true → (2 : Int).natAbs ≤ 2147483648 →
        t.val + (FP.ofInt binary32 (2 : Int)).val ≠ 0 →
        loop plusEqInt ([1, 2] : List Int) (1 + 1) 0 (.zero false) =
          some (roundQ binary32 (t.val + (FP.ofInt binary32 (2 : Int)).val))) ∧
      (t.isFinite = true → (2 : Int).natAbs ≤ 16777216 → t.val + ((2 : Int) : ℚ) ≠ 0 →
        loop plusEqInt ([1, 2] : List Int) (1 + 1) 0 (.zero false) =
          some (roundQ binary32 (t.val + ((2 : Int) : ℚ))))) ∧
    (∃ total, loop plusEqDouble [FP.num 42, FP.num 34] (sizeToInt [FP.num 42, FP.num 34].length).toNat 0 (.zero false) = some total ∧
      total = ([FP.num 42, FP.num 34].take (sizeToInt [FP.num 42, FP.num 34].length).toNat).foldl plusEqDouble (.zero false) ∧
      total.inFormat binary32 ∧
      meanCore plusEqDouble [FP.num 42, FP.num 34] =
        some (FP.div binary32 total (FP.ofInt binary32 (sizeToInt [FP.num 42, FP.num 34].length))) ∧
      (FP.div binary32 total (FP.ofInt binary32 (sizeToInt [FP.num 42, FP.num 34].length))).inFormat binary32 ∧
      meanC_double [FP.num 42, FP.num 34] = some (FP.cvt binary64
        (FP.div binary32 total (FP.ofInt binary32 (sizeToInt [FP.num 42, FP.num 34].length))))) ∧
    (∃ total, loop plusEqFloat [FP.num 42, FP.num 34] (sizeToInt [FP.num 42, FP.num 34].length).toNat 0 (.zero false) = some total ∧
      total = ([FP.num 42, FP.num 34].take (sizeToInt [FP.num 42, FP.num 34].length).toNat).foldl plusEqFloat (.zero false) ∧
      total.inFormat binary32 ∧
      meanCore plusEqFloat [FP.num 42, FP.num 34] =
        some (FP.div binary32 total (FP.ofInt binary32 (sizeToInt [FP.num 42, FP.num 34].length))) ∧
      (FP.div binary32 total (FP.ofInt binary32 (sizeToInt [FP.num 42, FP.num 34].length))).inFormat binary32 ∧
      meanC_float [FP.num 42, FP.num 34] =
        some (FP.div binary32 total (FP.ofInt binary32 (sizeToInt [FP.num 42, FP.num 34].length)))) ∧
    (∃ total, loop plusEqInt ([1, 2] : List Int) (sizeToInt ([1, 2] : List Int).length).toNat 0 (.zero false) = some total ∧
      total = (([1, 2] : List Int).take (sizeToInt ([1, 2] : List Int).length).toNat).foldl plusEqInt (.zero false) ∧
      total.inFormat binary32 ∧
      meanCore plusEqInt ([1, 2] : List Int) =
        some (FP.div binary32 total (FP.ofInt binary32 (sizeToInt ([1, 2] : List Int).length))) ∧
      (FP.div binary32 total (FP.ofInt binary32 (sizeToInt ([1, 2] : List Int).length))).inFormat binary32 ∧
      meanC_int ([1, 2] : List Int) =
        FP.toInt32 (FP.div binary32 total (FP.ofInt binary32 (sizeToInt ([1, 2] : List Int).length)))) ∧
    ((∀ q : ℚ, Rep binary32 q → Rep binary64 q) ∧ Rep binary64 16777217 ∧
      ¬ Rep binary32 16777217 ∧
      plusEqDouble (.zero false) (.num 16777217) = .num 16777216) :=
  C12_float_accumulator [FP.num 42, FP.num 34] [1, 2] 1 (FP.num 34) 2 rfl rfl

end MeanC
